import Mathlib

/-!
# Verification of the zk-tests automation scripts

Shallow embedding of the three Python scripts of this repository:

* `packages/tee-login/tee/update_stagex_hashes.py`  (namespace `StagexUpdater`)
* `packages/tee-login/tee/x86/update.py`            (namespace `X86Updater`)
* `packages/tee-login/dev/aws/aws_instance_finder.py` (namespace `AwsFinder`)

Text is modelled as `List Char`.  The Python regexes used by the scripts are
backtracking-free except for the optional registry-prefix alternation of the
x86 variant (each repetition `X+` is over a character class that excludes the
character required immediately after it, so the greedy maximal munch is the
only possible match); they are therefore embedded as deterministic
parsers built from a small set of combinators, with the x86 prefix
alternation tried in the regex engine's order.  External effects
(filesystem, subprocess, HTTP) are explicit parameters or write lists.
-/

/-- Python's `\s` character class / `str.strip` whitespace, ASCII range
(the build files involved are ASCII). -/
def isWs (c : Char) : Bool :=
  c == ' ' || c == '\t' || c == '\n' || c == '\r' || c == '\x0b' || c == '\x0c'

/-- The character class `[a-f0-9]` used for digests. -/
def isHexLower (c : Char) : Bool :=
  ('0' ≤ c && c ≤ '9') || ('a' ≤ c && c ≤ 'f')

/-- Match a literal string at the head of the input and return the rest
(regex literal / `str.startswith` + slice). -/
def dropLit : List Char → List Char → Option (List Char)
  | [], s => some s
  | _ :: _, [] => none
  | l :: ls, c :: cs => if c = l then dropLit ls cs else none

/-- Greedy `X+` over a character class: the maximal nonempty run of
characters satisfying `p`, and the remainder. -/
def pPlus (p : Char → Bool) (s : List Char) : Option (List Char × List Char) :=
  match s.takeWhile p with
  | [] => none
  | a => some (a, s.dropWhile p)

/-- `X{k}` over a character class: exactly `k` characters satisfying `p`. -/
def pExact (k : Nat) (p : Char → Bool) (s : List Char) :
    Option (List Char × List Char) :=
  let a := s.take k
  if a.length = k && a.all p then some (a, s.drop k) else none

/-- `str.strip()`: remove leading and trailing whitespace. -/
def pyStrip (s : List Char) : List Char :=
  ((s.dropWhile isWs).reverse.dropWhile isWs).reverse

/-- Split a text into lines at `'\n'` (terminators removed).  `readlines`
keeps the terminators, but every consumer immediately `strip`s them, so the
extraction result is unchanged. -/
def splitNl : List Char → List (List Char)
  | [] => [[]]
  | '\n' :: r => [] :: splitNl r
  | c :: r =>
    match splitNl r with
    | l :: ls => (c :: l) :: ls
    | [] => [[c]]

/-! ## The shared `FROM ... AS ...` line matcher

Both extractors use `re.match` with a pattern of shape
`^FROM\s+<prefix>([^@:]+)[@:]([^@\s]+)\s+AS\s+(.+)$` on a stripped line
(which therefore contains no newline).  After the prefix the two patterns
agree; `coreFrom` is that common tail.  All repetitions are forced
(each `X+` class excludes the next required character), so the parse is
deterministic. -/

/-- `([^@:]+)[@:]([^@\s]+)\s+AS\s+(.+)$` — name, separator, reference
token, alias.  The matcher is only applied to stripped `readlines` lines,
which contain no newline; the final guard makes that explicit (`.` cannot
cross a newline and `$` only matches at the end there). -/
def coreFrom (r : List Char) : Option (List Char × List Char × List Char) :=
  match pPlus (fun c => !(c == '@' || c == ':')) r with
  | none => none
  | some (name, r1) =>
  match r1 with
  | [] => none
  | sep :: r2 =>
  if sep == '@' || sep == ':' then
    match pPlus (fun c => !(isWs c || c == '@')) r2 with
    | none => none
    | some (ref, r3) =>
    match pPlus isWs r3 with
    | none => none
    | some (_, r4) =>
    match dropLit ['A', 'S'] r4 with
    | none => none
    | some r5 =>
    match pPlus isWs r5 with
    | none => none
    | some (_, alias_) =>
    if alias_.isEmpty then none
    else if alias_.all (fun c => !(c == '\n')) then some (name, ref, alias_)
    else none
  else none

namespace StagexUpdater

/-- `re.match(r'^FROM\s+stagex/([^@:]+)[@:]([^@\s]+)\s+AS\s+(.+)$', line)`
from `update_stagex_hashes.py`: mandatory literal `stagex/` prefix. -/
def matchFrom (s : List Char) : Option (List Char × List Char × List Char) :=
  match dropLit "FROM".data s with
  | none => none
  | some r0 =>
  match pPlus isWs r0 with
  | none => none
  | some (_, r1) =>
  match dropLit "stagex/".data r1 with
  | none => none
  | some r2 => coreFrom r2

end StagexUpdater

namespace X86Updater

/-- `re.match(r'^FROM\s+(?:\$\{STAGEX_REG\}/|[^/]+/)?([^@:]+)[@:]([^@\s]+)\s+AS\s+(.+)$', line)`
from `x86/update.py`: optional prefix, alternatives tried in regex order
(`${STAGEX_REG}/` literal, then `[^/]+/`, then the empty prefix); on
failure of the rest the engine backtracks to the next alternative. -/
def matchFrom (s : List Char) : Option (List Char × List Char × List Char) :=
  match dropLit "FROM".data s with
  | none => none
  | some r0 =>
  match pPlus isWs r0 with
  | none => none
  | some (_, r1) =>
  (match dropLit "${STAGEX_REG}/".data r1 with
   | some r2 => coreFrom r2
   | none => none) <|>
  (match pPlus (fun c => !(c == '/')) r1 with
   | some (_, '/' :: r2) => coreFrom r2
   | _ => none) <|>
  coreFrom r1

end X86Updater

/-- The common body of both `extract_stagex_images` functions: per line,
strip, skip comments/blank lines, run the `FROM` matcher, skip `local`
references, and keep `(name, hash-after-sha256:, stripped line)` for
references starting with `sha256:`. -/
def extractLoop (matcher : List Char → Option (List Char × List Char × List Char)) :
    List (List Char) → List (List Char × List Char × List Char)
  | [] => []
  | l :: ls =>
    let line := pyStrip l
    if line.take 1 = ['#'] || line.isEmpty then extractLoop matcher ls
    else
      match matcher line with
      | some (image_name, current_ref, _alias) =>
        if current_ref = "local".data then extractLoop matcher ls
        else
          match dropLit "sha256:".data current_ref with
          | some current_hash => (image_name, current_hash, line) :: extractLoop matcher ls
          | none => extractLoop matcher ls
      | none => extractLoop matcher ls

namespace StagexUpdater

/-- `extract_stagex_images` of `update_stagex_hashes.py`, over the list of
lines of the file. -/
def extract_stagex_images (lines : List (List Char)) :
    List (List Char × List Char × List Char) :=
  extractLoop matchFrom lines

end StagexUpdater

namespace X86Updater

/-- `extract_stagex_images` of `x86/update.py`. -/
def extract_stagex_images (lines : List (List Char)) :
    List (List Char × List Char × List Char) :=
  extractLoop matchFrom lines

end X86Updater

/-! ## The rewriter patterns and `re.sub`

`update_containerfile` runs, per update entry, `re.sub` with the pattern
`(FROM\s+<prefix><escaped name>@sha256:)[a-f0-9]{64}(\s+AS\s+.+)` and the
replacement `\g<1><new hash>\g<2>`.  `re.escape` makes the name a literal.
A successful match is represented as `(group1, group2, rest)`; the rest of
the scanned text resumes after the match. -/

/-- The part of the update pattern after the prefix:
`<name literal>@sha256:)[a-f0-9]{64}(\s+AS\s+.+)`.  `pre` is the text the
prefix consumed (needed to rebuild group 1). -/
def updCore (w1 pre name : List Char) (r : List Char) :
    Option (List Char × List Char × List Char) :=
  match dropLit name r with
  | none => none
  | some r2 =>
  match dropLit "@sha256:".data r2 with
  | none => none
  | some r3 =>
  match pExact 64 isHexLower r3 with
  | none => none
  | some (_, r4) =>
  match pPlus isWs r4 with
  | none => none
  | some (w2, r5) =>
  match dropLit ['A', 'S'] r5 with
  | none => none
  | some r6 =>
  match pPlus isWs r6 with
  | none => none
  | some (w3, r7) =>
  match pPlus (fun c => !(c == '\n')) r7 with
  | none => none
  | some (t, r8) =>
  some ("FROM".data ++ w1 ++ pre ++ name ++ "@sha256:".data,
        w2 ++ ['A', 'S'] ++ w3 ++ t, r8)

namespace StagexUpdater

/-- One attempted match of
`(FROM\s+stagex/<name>@sha256:)[a-f0-9]{64}(\s+AS\s+.+)` at the head of
`s`. -/
def updMatch (name : List Char) (s : List Char) :
    Option (List Char × List Char × List Char) :=
  match dropLit "FROM".data s with
  | none => none
  | some r0 =>
  match pPlus isWs r0 with
  | none => none
  | some (w1, r1) =>
  match dropLit "stagex/".data r1 with
  | none => none
  | some r2 => updCore w1 "stagex/".data name r2

end StagexUpdater

namespace X86Updater

/-- One attempted match of
`(FROM\s+(?:\$\{STAGEX_REG\}/|[^/]+/)?<name>@sha256:)[a-f0-9]{64}(\s+AS\s+.+)`
at the head of `s`; prefix alternatives in the regex engine's order. -/
def updMatch (name : List Char) (s : List Char) :
    Option (List Char × List Char × List Char) :=
  match dropLit "FROM".data s with
  | none => none
  | some r0 =>
  match pPlus isWs r0 with
  | none => none
  | some (w1, r1) =>
  (match dropLit "${STAGEX_REG}/".data r1 with
   | some r2 => updCore w1 "${STAGEX_REG}/".data name r2
   | none => none) <|>
  (match pPlus (fun c => !(c == '/')) r1 with
   | some (p, '/' :: r2) => updCore w1 (p ++ ['/']) name r2
   | _ => none) <|>
  updCore w1 [] name r1

end X86Updater

/-- `re.sub` for an update pattern: scan left to right, replace each
non-overlapping match by `group1 ++ new_hash ++ group2`, resume after the
match.  Structural recursion on a fuel initialised to the text length
(every match consumes at least `FROM`, so the fuel never runs out). -/
def subAux (tm : List Char → Option (List Char × List Char × List Char))
    (new_hash : List Char) : Nat → List Char → List Char
  | 0, s => s
  | Nat.succ fuel, s =>
    match s with
    | [] => []
    | c :: cs =>
      match tm (c :: cs) with
      | some (g1, g2, rest) => g1 ++ new_hash ++ g2 ++ subAux tm new_hash fuel rest
      | none => c :: subAux tm new_hash fuel cs

/-- Whether the update pattern matches anywhere in the text. -/
def anyMatch (tm : List Char → Option (List Char × List Char × List Char)) :
    List Char → Bool
  | [] => false
  | c :: cs => (tm (c :: cs)).isSome || anyMatch tm cs

/-- A file write as performed by `open(path, 'w'); f.write(content)`, in
program order. -/
structure FileWrite where
  path : List Char
  content : List Char
deriving DecidableEq

namespace StagexUpdater

/-- `re.sub(pattern(name), replacement(new_hash), content)` of
`update_stagex_hashes.py`. -/
def reSub (name new_hash content : List Char) : List Char :=
  subAux (updMatch name) new_hash content.length content

/-- `update_containerfile` of `update_stagex_hashes.py`: fold the update
map (a Python dict in insertion order, modelled as an association list)
through `re.sub`; if the text changed, write the original to
`<path>.backup` and then the new content to `<path>`, in that order;
otherwise write nothing.  Returns the final content and the ordered list
of writes. -/
def update_containerfile (path content : List Char)
    (updates : List (List Char × List Char)) : List Char × List FileWrite :=
  let newContent := updates.foldl (fun c p => reSub p.1 p.2 c) content
  if newContent ≠ content then
    (newContent, [⟨path ++ ".backup".data, content⟩, ⟨path, newContent⟩])
  else
    (newContent, [])

end StagexUpdater

namespace X86Updater

/-- `re.sub(pattern(name), replacement(new_hash), content)` of
`x86/update.py`. -/
def reSub (name new_hash content : List Char) : List Char :=
  subAux (updMatch name) new_hash content.length content

/-- `update_containerfile` of `x86/update.py` (identical body to the other
variant up to the pattern). -/
def update_containerfile (path content : List Char)
    (updates : List (List Char × List Char)) : List Char × List FileWrite :=
  let newContent := updates.foldl (fun c p => reSub p.1 p.2 c) content
  if newContent ≠ content then
    (newContent, [⟨path ++ ".backup".data, content⟩, ⟨path, newContent⟩])
  else
    (newContent, [])

end X86Updater

/-! ## The `main` drivers -/

/-- Python dict assignment `d[k] = v` on a dict kept as an insertion-ordered
association list: an existing key keeps its position and gets the new
value, a new key is appended. -/
def dictInsert : List (List Char × List Char) → List Char → List Char →
    List (List Char × List Char)
  | [], k, v => [(k, v)]
  | (k', v') :: d, k, v =>
    if k' = k then (k, v) :: d else (k', v') :: dictInsert d k v

/-- The resolution loop of `main`: for each extracted image, call the
resolver; a hash different from the current one is recorded in `updates`,
an equal hash is a logged no-op, `None` appends the name to
`failed_images`.  The resolver is a function parameter (one call per
occurrence; deterministic within a run). -/
def processImages (resolve : List Char → Option (List Char)) :
    List (List Char × List Char × List Char) →
    List (List Char × List Char) × List (List Char) →
    List (List Char × List Char) × List (List Char)
  | [], acc => acc
  | e :: es, (upd, failed) =>
    match resolve e.1 with
    | some new_hash =>
      processImages resolve es
        (if new_hash ≠ e.2.1 then (dictInsert upd e.1 new_hash, failed) else (upd, failed))
    | none => processImages resolve es (upd, failed ++ [e.1])

/-- Outcome of one run of `main`: the process exit status, the file writes
performed (in order), and the failed-image names printed in the summary. -/
structure MainResult where
  exitCode : Nat
  writes : List FileWrite
  failed : List (List Char)

namespace StagexUpdater

/-- `main` of `update_stagex_hashes.py`.  `file` is the content of the
build file at `path` (`none` = missing/unreadable: the `open` in
`extract_stagex_images` raises `FileNotFoundError`, which nothing catches,
so the interpreter terminates with status 1).  When at least one image
fails to resolve, `sys.exit(1)`; otherwise `main` returns and the process
exits 0. -/
def main (path : List Char) (file : Option (List Char))
    (resolve : List Char → Option (List Char)) : MainResult :=
  match file with
  | none => ⟨1, [], []⟩
  | some content =>
    let images := extract_stagex_images (splitNl content)
    let res := processImages resolve images ([], [])
    let writes :=
      if res.1 ≠ [] then (update_containerfile path content res.1).2 else []
    ⟨if res.2 ≠ [] then 1 else 0, writes, res.2⟩

end StagexUpdater

namespace X86Updater

/-- `main` of `x86/update.py` (same body as the other variant, using this
variant's extractor and rewriter). -/
def main (path : List Char) (file : Option (List Char))
    (resolve : List Char → Option (List Char)) : MainResult :=
  match file with
  | none => ⟨1, [], []⟩
  | some content =>
    let images := extract_stagex_images (splitNl content)
    let res := processImages resolve images ([], [])
    let writes :=
      if res.1 ≠ [] then (update_containerfile path content res.1).2 else []
    ⟨if res.2 ≠ [] then 1 else 0, writes, res.2⟩

end X86Updater

/-! ## The digest resolvers

The two `get_arm64_hash` functions talk to the outside world (a `docker
manifest inspect` subprocess, or an HTTPS package index).  The world is an
explicit parameter; the functions return `Except PyErr (Option hash)`:
`.ok none` is Python `None`, `.error e` is an exception escaping to the
caller. -/

/-- The Python exceptions relevant to the resolvers. -/
inductive PyErr where
  /-- `FileNotFoundError` (also: `OSError` from a missing `docker` binary). -/
  | fileNotFound : PyErr
  /-- `TypeError`. -/
  | typeErr : PyErr
  /-- `AttributeError`. -/
  | attributeErr : PyErr
  /-- `ValueError`. -/
  | valueErr : PyErr
deriving DecidableEq

/-- JSON values as produced by `json.loads`. -/
inductive Json where
  | null : Json
  | jbool : Bool → Json
  | jnum : Int → Json
  | jstr : List Char → Json
  | jarr : List Json → Json
  | jobj : List (List Char × Json) → Json

/-- Python `d.get(key, default)`; raises `AttributeError` when the receiver
is not a dict. -/
def jGet (j : Json) (key : List Char) (dflt : Json) : Except PyErr Json :=
  match j with
  | .jobj kvs => .ok (((kvs.find? (fun p => p.1 == key)).map (fun p => p.2)).getD dflt)
  | _ => .error .attributeErr

/-- Python `==` between a JSON value and a string (values of different
types compare unequal without raising). -/
def jEqStr (j : Json) (s : List Char) : Bool :=
  match j with
  | .jstr t => t == s
  | _ => false

/-- `re.search('<lit>([a-f0-9]{64})', s)`: first position where the
literal occurs followed by 64 hex characters; returns the captured
digest. -/
def litShaAt (lit : List Char) (s : List Char) : Option (List Char) :=
  match dropLit lit s with
  | some r => (pExact 64 isHexLower r).map (fun p => p.1)
  | none => none

/-- Leftmost search for `litShaAt`. -/
def searchLitSha (lit : List Char) : List Char → Option (List Char)
  | [] => none
  | c :: cs =>
    match litShaAt lit (c :: cs) with
    | some d => some d
    | none => searchLitSha lit cs

namespace StagexUpdater

/-- Behaviour of `subprocess.run(['docker','manifest','inspect',...],
check=True)` followed by `json.loads(result.stdout)`. -/
inductive ManifestWorld where
  /-- `docker` exits nonzero: `CalledProcessError` (caught). -/
  | cpeFail : ManifestWorld
  /-- The `docker` binary is absent: `subprocess.run` raises
  `FileNotFoundError` (not caught). -/
  | procMissing : ManifestWorld
  /-- The command succeeds; `none` means `json.loads` raises
  `JSONDecodeError` (caught), `some j` is the parsed value. -/
  | output : Option Json → ManifestWorld

/-- The `for entry in manifest_data` loop body of `get_arm64_hash`:
`entry.get('Descriptor', {}).get('platform', {})`, the arm64/linux test,
and `re.search(r'@sha256:([a-f0-9]{64})', entry.get('Ref', ''))`. -/
def iterEntries : List Json → Except PyErr (Option (List Char))
  | [] => .ok none
  | e :: rest => do
    let descriptor ← jGet e "Descriptor".data (.jobj [])
    let platform ← jGet descriptor "platform".data (.jobj [])
    let arch ← jGet platform "architecture".data .null
    let os ← jGet platform "os".data .null
    if jEqStr arch "arm64".data && jEqStr os "linux".data then
      let ref ← jGet e "Ref".data (.jstr [])
      match ref with
      | .jstr s =>
        match searchLitSha "@sha256:".data s with
        | some d => .ok (some d)
        | none => iterEntries rest
      | _ => .error .typeErr
    else
      iterEntries rest

/-- `get_arm64_hash` of `update_stagex_hashes.py`.  Only
`CalledProcessError` and `JSONDecodeError` are caught; every other
exception (missing `docker` binary, iterating a non-list, `.get` on a
non-dict entry, `re.search` on a non-string `Ref`) escapes. -/
def get_arm64_hash (_image_name : List Char) (w : ManifestWorld) :
    Except PyErr (Option (List Char)) :=
  match w with
  | .cpeFail => .ok none
  | .procMissing => .error .fileNotFound
  | .output none => .ok none
  | .output (some j) =>
    match j with
    | .jarr entries => iterEntries entries
    | .jobj kvs => if kvs.isEmpty then .ok none else .error .attributeErr
    | .jstr s => if s.isEmpty then .ok none else .error .attributeErr
    | _ => .error .typeErr

end StagexUpdater

namespace X86Updater

/-- The first dash split `image_name.split('-', 1)`: `none` when the name
contains no dash (the two-variable unpacking then raises `ValueError`). -/
def breakDash : List Char → Option (List Char × List Char)
  | [] => none
  | '-' :: r => some ([], r)
  | c :: r => (breakDash r).map (fun p => (c :: p.1, p.2))

/-- The URL derivation at the top of `get_arm64_hash` in `x86/update.py`.
It runs OUTSIDE the `try` block: the fallback `kind, subpath =
image_name.split('-', 1)` raises `ValueError` for a dash-free name, and
that exception propagates to the caller. -/
def deriveUrl (image_name : List Char) : Except PyErr (List Char) :=
  if image_name = "core-ca-certificates".data then
    .ok "https://stagex.tools/packages/core/ca-certificates".data
  else if image_name = "user-linux-nitro".data then
    .ok "https://stagex.tools/packages/user/linux-nitro".data
  else
    let kindsub : Except PyErr (List Char × List Char) :=
      match dropLit "core-".data image_name with
      | some rest => .ok ("core".data, rest)
      | none =>
        match dropLit "user-".data image_name with
        | some rest => .ok ("user".data, rest)
        | none =>
          match breakDash image_name with
          | some p => .ok p
          | none => .error .valueErr
    kindsub.map (fun p =>
      "https://stagex.tools/packages/".data ++ p.1 ++ ['/'] ++
        p.2.map (fun c => if c = '-' then '/' else c))

/-- Behaviour of the `requests.get` + BeautifulSoup part of
`get_arm64_hash` in `x86/update.py`. -/
inductive IndexWorld where
  /-- Any exception inside the `try` block (transport error,
  `raise_for_status`, parsing): caught by `except Exception`. -/
  | fetchRaises : IndexWorld
  /-- The page is fetched; its text nodes in document order
  (`soup.find(string=...)` scans them). -/
  | page : List (List Char) → IndexWorld

/-- `get_arm64_hash` of `x86/update.py`: derive the URL (may raise,
uncaught), then inside `try`: find the first text node matching
`linux/arm64 sha256:([a-f0-9]{64})` and return the first
`sha256:([a-f0-9]{64})` occurrence in that node (note: searched from the
start of the node, not from the `linux/arm64` occurrence). -/
def get_arm64_hash (image_name : List Char) (w : IndexWorld) :
    Except PyErr (Option (List Char)) := do
  let _url ← deriveUrl image_name
  match w with
  | .fetchRaises => .ok none
  | .page nodes =>
    match nodes.find? (fun nd => (searchLitSha "linux/arm64 sha256:".data nd).isSome) with
    | some nd => .ok (searchLitSha "sha256:".data nd)
    | none => .ok none

end X86Updater

/-! ## The AWS instance finder (`aws_instance_finder.py`) -/

namespace AwsFinder

/-- The `prices.Linux.us-east-1` dictionary of one instance record:
optional `Shared` and `Dedicated` price strings. -/
structure RegionOffers where
  sharedPrice : Option (List Char)
  dedicatedPrice : Option (List Char)
deriving DecidableEq

/-- The parts of one instance record that `aws_instance_finder.py` reads.
`prices` is `none` when any of the `prices` / `Linux` / `us-east-1` keys
is missing (the chain of `.get(_, {})` calls then ends in an empty dict,
so both price keys are absent). -/
structure InstanceData where
  vcpu : Option Int
  regions : List (List Char)
  prices : Option RegionOffers
deriving DecidableEq

/-- Python `float(s)` on simple decimal literals (optional sign, digits
with an optional fractional part): `none` models `ValueError`.  The full
`float` grammar (exponents, `inf`, `nan`, underscores) is not needed by the
price strings of the dataset. -/
def pyFloat (s : List Char) : Option Rat :=
  let (sign, t) :=
    match s with
    | '-' :: r => ((-1 : Rat), r)
    | '+' :: r => ((1 : Rat), r)
    | r => ((1 : Rat), r)
  let intPart := t.takeWhile (fun c => c.isDigit)
  let rest := t.dropWhile (fun c => c.isDigit)
  let digitsVal : List Char → Nat := fun l =>
    l.foldl (fun acc c => acc * 10 + (c.toNat - '0'.toNat)) 0
  match rest with
  | [] =>
    if intPart.isEmpty then none
    else some (sign * (digitsVal intPart : Rat))
  | '.' :: frac =>
    if frac.all (fun c => c.isDigit) && !(intPart.isEmpty && frac.isEmpty) then
      some (sign * ((digitsVal intPart : Rat) +
        (digitsVal frac : Rat) / ((10 : Rat) ^ frac.length)))
    else none
  | _ => none

/-- `get_linux_price_us_east_1`: prefer `Shared`, fall back to `Dedicated`;
`float` conversion failures are caught and become `None`.  Note that an
unparsable `Shared` price does NOT fall back to `Dedicated`: the
`ValueError` jumps straight to the `except` clause. -/
def get_linux_price_us_east_1 (instance_data : InstanceData) : Option Rat :=
  match instance_data.prices with
  | none => none
  | some offers =>
    match offers.sharedPrice with
    | some v => pyFloat v
    | none =>
      match offers.dedicatedPrice with
      | some v => pyFloat v
      | none => none

/-- `filter_instances`: keep instances that are in the allowed set (when
given), have exactly the requested vCPU count, have a usable Linux
us-east-1 price, and list `us-east-1` among their regions; output in input
order as `(name, data, price)`. -/
def filter_instances (instances : List (List Char × InstanceData))
    (cpu_count : Int) (allowed_instances : Option (List (List Char))) :
    List (List Char × InstanceData × Rat) :=
  match instances with
  | [] => []
  | (instance_name, instance_data) :: rest =>
    if (match allowed_instances with
        | some allowed => !(instance_name ∈ allowed : Bool)
        | none => false) then
      filter_instances rest cpu_count allowed_instances
    else if instance_data.vcpu ≠ some cpu_count then
      filter_instances rest cpu_count allowed_instances
    else
      match get_linux_price_us_east_1 instance_data with
      | none => filter_instances rest cpu_count allowed_instances
      | some price =>
        if "us-east-1".data ∈ instance_data.regions then
          (instance_name, instance_data, price) ::
            filter_instances rest cpu_count allowed_instances
        else
          filter_instances rest cpu_count allowed_instances

end AwsFinder


/-! ## Structured build-file texts

The correctness statements about the rewriter quantify over build files
made of well-formed lines: digest-pinned `stagex/` declarations written in
the canonical single-space form, and arbitrary other lines.  `benignChar`
is the character set of real stagex image names and aliases
(`core-binutils`, `libunwind`, ...): lowercase letters, digits, `-`, `_`
and `.`; in particular it excludes `@`, `:`, `/`, whitespace and every
uppercase letter. -/

/-- Characters allowed in well-formed image names and aliases. -/
def benignChar (c : Char) : Bool :=
  c.isLower || c.isDigit || c == '-' || c == '_' || c == '.'

/-- A nonempty string of benign characters. -/
def benignStr (s : List Char) : Prop :=
  s ≠ [] ∧ ∀ c ∈ s, benignChar c

/-- A 64-character `[a-f0-9]` digest. -/
def hex64 (d : List Char) : Prop :=
  d.length = 64 ∧ ∀ c ∈ d, isHexLower c

/-- One line of a structured build file: a digest-pinned declaration
`FROM stagex/<m>@sha256:<d> AS <a>`, or any other line. -/
inductive LineKind where
  | decl : List Char → List Char → List Char → LineKind
  | raw : List Char → LineKind

/-- The text of one structured line. -/
def renderLine : LineKind → List Char
  | .decl m d a => "FROM stagex/".data ++ m ++ "@sha256:".data ++ d ++ " AS ".data ++ a
  | .raw s => s

/-- Join structured lines with newlines. -/
def renderText : List LineKind → List Char
  | [] => []
  | [l] => renderLine l
  | l :: ls => renderLine l ++ '\n' :: renderText ls

/-- Well-formedness of one structured line.  A `raw` line must not contain
`'F'` (so it cannot start a `FROM` pattern match) nor a newline. -/
def benignLine : LineKind → Prop
  | .decl m d a => benignStr m ∧ hex64 d ∧ benignStr a
  | .raw s => ∀ c ∈ s, c ≠ 'F' ∧ c ≠ '\n'

/-- The effect of one `re.sub` call on one structured line: only the digest
of the declarations of exactly the named image changes. -/
def updLine (name new_hash : List Char) : LineKind → LineKind
  | .decl m d a => .decl m (if m = name then new_hash else d) a
  | .raw s => .raw s

/-- The effect of a whole update map on one structured line. -/
def lineFold (updates : List (List Char × List Char)) (l : LineKind) : LineKind :=
  updates.foldl (fun l p => updLine p.1 p.2 l) l

/-- The digest a declaration of `m` carries after the whole update map ran:
the last update listed for `m`, else the old digest `d`. -/
def lastVal (updates : List (List Char × List Char)) (m d : List Char) : List Char :=
  updates.foldl (fun acc p => if p.1 = m then p.2 else acc) d

/-- The last update listed for `m`, if any. -/
def lastHit : List (List Char × List Char) → List Char → Option (List Char)
  | [], _ => none
  | p :: us, m =>
    match lastHit us m with
    | some v => some v
    | none => if p.1 = m then some p.2 else none

/-! ## Declarative line grammar (for the extractor characterization)

`declGrammar` restates, as a plain decomposition, which stripped lines the
extraction regex accepts and which groups it produces; it is compared with
the executable matcher `StagexUpdater.matchFrom`. -/

/-- A nonempty whitespace run. -/
def wsRunOk (w : List Char) : Prop :=
  w ≠ [] ∧ ∀ c ∈ w, isWs c

/-- Declarative form of
`^FROM\s+stagex/([^@:]+)[@:]([^@\s]+)\s+AS\s+(.+)$` with the groups
`nm`, `ref`, `al`.  The boundary conditions (separator after the name,
whitespace after the reference, non-whitespace alias head) make the
decomposition unique, mirroring the greedy repetitions. -/
def declGrammar (s nm ref al : List Char) : Prop :=
  ∃ w1 sep w2 w3,
    s = "FROM".data ++ w1 ++ "stagex/".data ++ nm ++ sep ::
        (ref ++ w2 ++ ['A', 'S'] ++ w3 ++ al) ∧
    wsRunOk w1 ∧
    (sep = '@' ∨ sep = ':') ∧
    nm ≠ [] ∧ (∀ c ∈ nm, ¬(c = '@' ∨ c = ':')) ∧
    ref ≠ [] ∧ (∀ c ∈ ref, ¬(isWs c = true ∨ c = '@')) ∧
    wsRunOk w2 ∧ wsRunOk w3 ∧
    al ≠ [] ∧ (∀ c ∈ al, c ≠ '\n') ∧ (∀ c ∈ al.take 1, ¬ isWs c)

/-- The per-line body of `extract_stagex_images` (strip, comment/blank
skip, match, `local` skip, `sha256:` check), shared by the
characterization of the extractor as a `filterMap`. -/
def lineEntry (matcher : List Char → Option (List Char × List Char × List Char))
    (l : List Char) : Option (List Char × List Char × List Char) :=
  let line := pyStrip l
  if line.take 1 = ['#'] || line.isEmpty then none
  else
    match matcher line with
    | some (image_name, current_ref, _alias) =>
      if current_ref = "local".data then none
      else
        match dropLit "sha256:".data current_ref with
        | some current_hash => some (image_name, current_hash, line)
        | none => none
    | none => none

/-- The update map built by `main` out of the extracted images, written as
a direct `filterMap` (the loop characterization below shows the dict-based
loop computes this whenever the extracted names are distinct). -/
def specUpdates (resolve : List Char → Option (List Char))
    (images : List (List Char × List Char × List Char)) :
    List (List Char × List Char) :=
  images.filterMap (fun e =>
    match resolve e.1 with
    | some h => if h ≠ e.2.1 then some (e.1, h) else none
    | none => none)

namespace AwsFinder

/-- The price-selection rule as worded by the specification: the value of
`prices.Linux.us-east-1.Shared` when the `Shared` key is present, else of
`Dedicated` when present, else no price.  Compared with the implementation
`get_linux_price_us_east_1`. -/
def specPrice (instance_data : InstanceData) : Option Rat :=
  match instance_data.prices with
  | none => none
  | some offers =>
    match offers.sharedPrice, offers.dedicatedPrice with
    | some v, _ => pyFloat v
    | none, some v => pyFloat v
    | none, none => none

end AwsFinder

/-! ## Concrete inputs used by counterexamples and witnesses -/

/-- 64 `'a'`: a valid lowercase-hex digest. -/
def hexA : List Char := List.replicate 64 'a'

/-- 64 `'b'`. -/
def hexB : List Char := List.replicate 64 'b'

/-- 64 `'c'`. -/
def hexC : List Char := List.replicate 64 'c'

/-- 64 `'d'`. -/
def hexD : List Char := List.replicate 64 'd'

/-- A single line that the Extractor reports as the declaration of
`foo-extra`, whose alias text happens to contain a complete declaration of
`foo` (the regexes do not know about line structure beyond `\s`/`.`). -/
def cexSharedLine : List Char :=
  "FROM stagex/foo-extra@sha256:".data ++ hexA ++
    " AS x FROM stagex/foo@sha256:".data ++ hexA ++ " AS y".data

/-- `cexSharedLine` after an update of `foo` to `hexB`. -/
def cexSharedLineAfter : List Char :=
  "FROM stagex/foo-extra@sha256:".data ++ hexA ++
    " AS x FROM stagex/foo@sha256:".data ++ hexB ++ " AS y".data

/-- An adversarial update-map key: it spells the tail of one declaration
line, a newline, and the head of the next declaration. -/
def cexKey : List Char :=
  "q@sha256:".data ++ hexA ++ " AS z\nFROM stagex/r".data

/-- Two well-formed declaration lines (for images `q` and `r`). -/
def cexIdemText : List Char :=
  "FROM stagex/q@sha256:".data ++ hexC ++
    " AS z\nFROM stagex/r@sha256:".data ++ hexC ++ " AS u".data

/-- The update map `{cexKey: hexD, "q": hexA}` (values are 64-char
lowercase hex, as the claim requires). -/
def cexIdemUpdates : List (List Char × List Char) :=
  [(cexKey, hexD), ("q".data, hexA)]

/-- Shape check for one entry of a manifest list, as `iterEntries`
dereferences it: the entry is a dict; its `Descriptor` value (when
present) is a dict; that dict's `platform` value (when present) is a
dict; the entry's `Ref` value (when present) is a string. -/
def entryOkB (e : Json) : Bool :=
  match e with
  | .jobj kvs =>
    (match ((kvs.find? (fun p => p.1 == "Descriptor".data)).map (fun p => p.2) :
        Option Json) with
     | some (.jobj dkvs) =>
       (match ((dkvs.find? (fun p => p.1 == "platform".data)).map (fun p => p.2) :
           Option Json) with
        | some (.jobj _) => true
        | some _ => false
        | none => true)
     | some _ => false
     | none => true) &&
    (match ((kvs.find? (fun p => p.1 == "Ref".data)).map (fun p => p.2) :
        Option Json) with
     | some (.jstr _) => true
     | some _ => false
     | none => true)
  | _ => false

/-- A well-shaped `docker manifest inspect --verbose` output: a list of
well-shaped entries. -/
def wfManifest (j : Json) : Bool :=
  match j with
  | .jarr es => es.all entryOkB
  | _ => false

/-- Decidability of the well-formedness predicates (used to evaluate the
theorems on concrete inputs). -/
instance (s : List Char) : Decidable (benignStr s) := by
  unfold benignStr; infer_instance

instance (d : List Char) : Decidable (hex64 d) := by
  unfold hex64; infer_instance

instance (w : List Char) : Decidable (wsRunOk w) := by
  unfold wsRunOk; infer_instance

instance (l : LineKind) : Decidable (benignLine l) := by
  cases l <;> (unfold benignLine; infer_instance)

/-! # Theorems -/

/-! ## Combinator lemmas -/

theorem dropLit_eq_some {l s r : List Char} :
    dropLit l s = some r ↔ s = l ++ r := by
  induction l generalizing s with
  | nil => simp [dropLit]
  | cons c cs ih =>
    cases s with
    | nil => simp [dropLit]
    | cons d ds =>
      by_cases h : d = c
      · subst h; simp [dropLit, ih]
      · simp [dropLit, h, Ne.symm h]

theorem dropLit_self (l r : List Char) : dropLit l (l ++ r) = some r :=
  dropLit_eq_some.mpr rfl

theorem takeWhile_app {p : Char → Bool} {a b : List Char}
    (ha : ∀ c ∈ a, p c) (hb : ∀ c ∈ b.take 1, ¬ p c) :
    (a ++ b).takeWhile p = a ∧ (a ++ b).dropWhile p = b := by
  induction a with
  | nil =>
    simp only [List.nil_append]
    cases b with
    | nil => simp
    | cons x xs =>
      have : ¬ p x := hb x (by simp)
      simp [List.takeWhile, List.dropWhile, this]
  | cons x xs ih =>
    have hx : p x := ha x (by simp)
    have ih2 := ih (fun c hc => ha c (by simp [hc]))
    simp [List.takeWhile, List.dropWhile, hx, ih2.1, ih2.2]

theorem pPlus_app {p : Char → Bool} {a b : List Char}
    (hne : a ≠ []) (ha : ∀ c ∈ a, p c) (hb : ∀ c ∈ b.take 1, ¬ p c) :
    pPlus p (a ++ b) = some (a, b) := by
  have h := takeWhile_app ha hb
  unfold pPlus
  rw [h.1, h.2]
  cases a with
  | nil => exact absurd rfl hne
  | cons x xs => rfl

theorem mem_of_mem_takeWhile {p : Char → Bool} {l : List Char} {c : Char}
    (h : c ∈ l.takeWhile p) : p c := by
  induction l with
  | nil => simp [List.takeWhile] at h
  | cons x xs ih =>
    by_cases hx : p x
    · simp only [List.takeWhile, hx] at h
      rcases List.mem_cons.mp h with h1 | h2
      · exact h1 ▸ hx
      · exact ih h2
    · simp [List.takeWhile, hx] at h

theorem head_dropWhile {p : Char → Bool} (l : List Char) :
    ∀ c ∈ (l.dropWhile p).take 1, ¬ p c := by
  induction l with
  | nil => simp [List.dropWhile]
  | cons x xs ih =>
    by_cases hx : p x
    · simpa [List.dropWhile, hx] using ih
    · intro c hc
      simp only [List.dropWhile, hx] at hc
      simp only [List.take, List.mem_singleton] at hc
      rw [hc]; simp [hx]

theorem pPlus_sound {p : Char → Bool} {s a r : List Char}
    (h : pPlus p s = some (a, r)) :
    s = a ++ r ∧ a ≠ [] ∧ (∀ c ∈ a, p c) ∧ (∀ c ∈ r.take 1, ¬ p c) := by
  unfold pPlus at h
  rcases htw : s.takeWhile p with _ | ⟨x, xs⟩
  · rw [htw] at h; exact absurd h (by simp)
  · rw [htw] at h
    have h2 : a = x :: xs ∧ r = s.dropWhile p := by
      have := h
      simp only [Option.some.injEq, Prod.mk.injEq] at this
      exact ⟨this.1.symm, this.2.symm⟩
    refine ⟨?_, ?_, ?_, ?_⟩
    · rw [h2.1, h2.2, ← htw, List.takeWhile_append_dropWhile]
    · rw [h2.1]; simp
    · intro c hc
      exact mem_of_mem_takeWhile (htw ▸ h2.1 ▸ hc : c ∈ s.takeWhile p)
    · rw [h2.2]; exact head_dropWhile s

theorem pExact_app {p : Char → Bool} {a : List Char} (b : List Char)
    (hlen : a.length = 64) (ha : ∀ c ∈ a, p c) :
    pExact 64 p (a ++ b) = some (a, b) := by
  unfold pExact
  rw [List.take_append_of_le_length (by omega), List.take_of_length_le (by omega),
    List.drop_append_of_le_length (by omega), List.drop_of_length_le (by omega)]
  simp only [List.nil_append, hlen]
  have : a.all p = true := List.all_eq_true.mpr (fun c hc => ha c hc)
  simp [this]

theorem pExact_sound {p : Char → Bool} {s a r : List Char}
    (h : pExact 64 p s = some (a, r)) :
    s = a ++ r ∧ a.length = 64 ∧ (∀ c ∈ a, p c) := by
  unfold pExact at h
  by_cases hc : ((s.take 64).length = 64 && (s.take 64).all p) = true
  · rw [if_pos hc] at h
    have h2 : a = s.take 64 ∧ r = s.drop 64 := by
      have := h
      simp only [Option.some.injEq, Prod.mk.injEq] at this
      exact ⟨this.1.symm, this.2.symm⟩
    have hb := (Bool.and_eq_true _ _).mp hc
    refine ⟨by rw [h2.1, h2.2, List.take_append_drop], ?_, ?_⟩
    · rw [h2.1]; exact of_decide_eq_true hb.1
    · intro c hcm
      exact List.all_eq_true.mp hb.2 c (h2.1 ▸ hcm)
  · rw [if_neg hc] at h; exact absurd h (by simp)

/-! ## Rewriter machinery -/

theorem orElse_eq_some_iff {α : Type} (a b : Option α) (v : α) :
    (a <|> b) = some v ↔ a = some v ∨ (a = none ∧ b = some v) := by
  cases a <;> simp [Option.orElse]

theorem dropLit_chain (a b s : List Char) :
    dropLit (a ++ b) s = (dropLit a s).bind (dropLit b) := by
  induction a generalizing s with
  | nil => simp [dropLit]
  | cons l ls ih =>
    cases s with
    | nil => simp [dropLit]
    | cons c cs =>
      by_cases h : c = l <;> simp [dropLit, h, ih]

theorem updCore_sound {w1 pre name r g1 g2 rest : List Char}
    (h : updCore w1 pre name r = some (g1, g2, rest)) :
    g1 = "FROM".data ++ w1 ++ pre ++ name ++ "@sha256:".data ∧
    ∃ d w2 w3 t,
      r = name ++ "@sha256:".data ++ d ++ w2 ++ ['A', 'S'] ++ w3 ++ t ++ rest ∧
      g2 = w2 ++ ['A', 'S'] ++ w3 ++ t ∧
      d.length = 64 ∧ (∀ c ∈ d, isHexLower c) ∧
      w2 ≠ [] ∧ (∀ c ∈ w2, isWs c) ∧
      w3 ≠ [] ∧ (∀ c ∈ w3, isWs c) ∧
      t ≠ [] ∧ (∀ c ∈ t, c ≠ '\n') ∧
      (∀ c ∈ rest.take 1, c = '\n') := by
  unfold updCore at h
  rcases h1 : dropLit name r with _ | r2 <;> simp only [h1] at h
  · exact absurd h (by simp)
  rcases h2 : dropLit "@sha256:".data r2 with _ | r3 <;> simp only [h2] at h
  · exact absurd h (by simp)
  rcases h3 : pExact 64 isHexLower r3 with _ | ⟨d, r4⟩ <;> simp only [h3] at h
  · exact absurd h (by simp)
  rcases h4 : pPlus isWs r4 with _ | ⟨w2, r5⟩ <;> simp only [h4] at h
  · exact absurd h (by simp)
  rcases h5 : dropLit ['A', 'S'] r5 with _ | r6 <;> simp only [h5] at h
  · exact absurd h (by simp)
  rcases h6 : pPlus isWs r6 with _ | ⟨w3, r7⟩ <;> simp only [h6] at h
  · exact absurd h (by simp)
  rcases h7 : pPlus (fun c => !(c == '\n')) r7 with _ | ⟨t, r8⟩ <;> simp only [h7] at h
  · exact absurd h (by simp)
  simp only [Option.some.injEq, Prod.mk.injEq] at h
  obtain ⟨hg1, hg2, hrest⟩ := h
  subst hrest
  have e1 := dropLit_eq_some.mp h1
  have e2 := dropLit_eq_some.mp h2
  have e3 := pExact_sound h3
  have e4 := pPlus_sound h4
  have e5 := dropLit_eq_some.mp h5
  have e6 := pPlus_sound h6
  have e7 := pPlus_sound h7
  refine ⟨hg1.symm, d, w2, w3, t, ?_, hg2.symm, e3.2.1, e3.2.2, e4.2.1, e4.2.2.1, e6.2.1,
    e6.2.2.1, e7.2.1, ?_, ?_⟩
  · rw [e1, e2, e3.1, e4.1, e5, e6.1, e7.1]
    simp [List.append_assoc]
  · intro c hc
    have := e7.2.2.1 c hc
    simpa using this
  · intro c hc
    have := e7.2.2.2 c hc
    simpa using this

theorem updMatchSx_sound {name s g1 g2 rest : List Char}
    (h : StagexUpdater.updMatch name s = some (g1, g2, rest)) :
    ∃ d, s = g1 ++ d ++ g2 ++ rest ∧ g1 ≠ [] := by
  unfold StagexUpdater.updMatch at h
  rcases h1 : dropLit "FROM".data s with _ | r0 <;> simp only [h1] at h
  · exact absurd h (by simp)
  rcases h2 : pPlus isWs r0 with _ | ⟨w1, r1⟩ <;> simp only [h2] at h
  · exact absurd h (by simp)
  rcases h3 : dropLit "stagex/".data r1 with _ | r2 <;> simp only [h3] at h
  · exact absurd h (by simp)
  obtain ⟨hg1, d, w2, w3, t, hr2, hg2, _⟩ := updCore_sound h
  refine ⟨d, ?_, by rw [hg1]; simp⟩
  rw [dropLit_eq_some.mp h1, (pPlus_sound h2).1, dropLit_eq_some.mp h3, hr2, hg1, hg2]
  simp [List.append_assoc]

theorem updMatchX86_sound {name s g1 g2 rest : List Char}
    (h : X86Updater.updMatch name s = some (g1, g2, rest)) :
    ∃ d, s = g1 ++ d ++ g2 ++ rest ∧ g1 ≠ [] := by
  unfold X86Updater.updMatch at h
  rcases h1 : dropLit "FROM".data s with _ | r0 <;> simp only [h1] at h
  · exact absurd h (by simp)
  rcases h2 : pPlus isWs r0 with _ | ⟨w1, r1⟩ <;> simp only [h2] at h
  · exact absurd h (by simp)
  have hs : s = "FROM".data ++ (w1 ++ r1) := by
    rw [dropLit_eq_some.mp h1, (pPlus_sound h2).1]
  rcases (orElse_eq_some_iff _ _ _).mp h with halt | ⟨_, h⟩
  · rcases h4 : dropLit "${STAGEX_REG}/".data r1 with _ | r2 <;> simp only [h4] at halt
    · exact absurd halt (by simp)
    obtain ⟨hg1, d, w2, w3, t, hr2, hg2, _⟩ := updCore_sound halt
    refine ⟨d, ?_, by rw [hg1]; simp⟩
    rw [hs, dropLit_eq_some.mp h4, hr2, hg1, hg2]
    simp [List.append_assoc]
  rcases (orElse_eq_some_iff _ _ _).mp h with halt | ⟨_, h⟩
  · rcases h4 : pPlus (fun c => !(c == '/')) r1 with _ | ⟨p, r2⟩ <;> simp only [h4] at halt
    · exact absurd halt (by simp)
    rcases r2 with _ | ⟨c2, r3⟩
    · exact absurd halt (by simp)
    by_cases hc2 : c2 = '/'
    · subst hc2
      obtain ⟨hg1, d, w2, w3, t, hr2, hg2, _⟩ := updCore_sound halt
      refine ⟨d, ?_, by rw [hg1]; simp⟩
      have hr1 : r1 = p ++ '/' :: r3 := (pPlus_sound h4).1
      rw [hs, hr1, hr2, hg1, hg2]
      simp [List.append_assoc]
    · rcases c2
      simp_all
  · obtain ⟨hg1, d, w2, w3, t, hr2, hg2, _⟩ := updCore_sound h
    refine ⟨d, ?_, by rw [hg1]; simp⟩
    rw [hs, hr2, hg1, hg2]
    simp [List.append_assoc]

theorem subAux_nil (tm : List Char → Option (List Char × List Char × List Char))
    (h : List Char) (fuel : Nat) : subAux tm h fuel [] = [] := by
  cases fuel <;> rfl

theorem subAux_congr {tm : List Char → Option (List Char × List Char × List Char)}
    (hlt : ∀ s g1 g2 r, tm s = some (g1, g2, r) → r.length < s.length)
    (h : List Char) :
    ∀ f1 : Nat, ∀ f2 : Nat, ∀ s : List Char, s.length ≤ f1 → s.length ≤ f2 →
      subAux tm h f1 s = subAux tm h f2 s := by
  intro f1
  induction f1 with
  | zero =>
    intro f2 s hs1 _
    have : s = [] := List.length_eq_zero.mp (Nat.le_zero.mp hs1)
    subst this
    exact (subAux_nil tm h f2).symm
  | succ f1 ih =>
    intro f2 s hs1 hs2
    cases s with
    | nil => rw [subAux_nil, subAux_nil]
    | cons c cs =>
      cases f2 with
      | zero => simp at hs2
      | succ f2 =>
        rcases hm : tm (c :: cs) with _ | ⟨g1, g2, r⟩
        · simp only [subAux, hm, List.length_cons] at hs1 hs2 ⊢
          rw [ih f2 cs (by omega) (by omega)]
        · have hr := hlt _ _ _ _ hm
          simp only [subAux, hm, List.length_cons] at hs1 hs2 hr ⊢
          rw [ih f2 r (by omega) (by omega)]

theorem updMatchSx_rest_lt (name : List Char) :
    ∀ s g1 g2 r, StagexUpdater.updMatch name s = some (g1, g2, r) →
      r.length < s.length := by
  intro s g1 g2 r h
  obtain ⟨d, hs, hg1⟩ := updMatchSx_sound h
  rw [hs]
  simp only [List.length_append]
  cases g1 with
  | nil => exact absurd rfl hg1
  | cons x xs => simp

theorem updMatchX86_rest_lt (name : List Char) :
    ∀ s g1 g2 r, X86Updater.updMatch name s = some (g1, g2, r) →
      r.length < s.length := by
  intro s g1 g2 r h
  obtain ⟨d, hs, hg1⟩ := updMatchX86_sound h
  rw [hs]
  simp only [List.length_append]
  cases g1 with
  | nil => exact absurd rfl hg1
  | cons x xs => simp

theorem reSubSx_nil (name h : List Char) : StagexUpdater.reSub name h [] = [] := rfl

theorem reSubSx_cons_none {name : List Char} (h : List Char) {c : Char} {cs : List Char}
    (hm : StagexUpdater.updMatch name (c :: cs) = none) :
    StagexUpdater.reSub name h (c :: cs) = c :: StagexUpdater.reSub name h cs := by
  unfold StagexUpdater.reSub
  simp only [List.length_cons, subAux, hm]

theorem reSubSx_match {name h s g1 g2 rest : List Char}
    (hm : StagexUpdater.updMatch name s = some (g1, g2, rest)) :
    StagexUpdater.reSub name h s =
      g1 ++ h ++ g2 ++ StagexUpdater.reSub name h rest := by
  obtain ⟨d, hs, hg1⟩ := updMatchSx_sound hm
  have hlen := updMatchSx_rest_lt name s g1 g2 rest hm
  cases s with
  | nil => simp at hlen
  | cons c cs =>
    unfold StagexUpdater.reSub
    simp only [List.length_cons, subAux, hm]
    simp only [List.length_cons] at hlen
    rw [subAux_congr (updMatchSx_rest_lt name) h cs.length rest.length rest (by omega)
      (le_refl _)]

/-! ## Character-class facts -/

theorem isWs_cases {c : Char} (h : isWs c = true) :
    c = ' ' ∨ c = '\t' ∨ c = '\n' ∨ c = '\r' ∨ c = '\x0b' ∨ c = '\x0c' := by
  simp only [isWs, Bool.or_eq_true, beq_iff_eq] at h
  tauto

theorem ne_of_bool_false {p : Char → Bool} {c x : Char}
    (h : p c = true) (hx : p x = false) : c ≠ x := by
  intro e
  rw [e, hx] at h
  cases h

theorem benignChar_not_ws {c : Char} (h : benignChar c = true) : isWs c = false := by
  by_contra hw
  rcases isWs_cases (Bool.of_not_eq_false hw) with rfl | rfl | rfl | rfl | rfl | rfl <;>
    exact absurd h (by decide)

theorem hex_not_ws {c : Char} (h : isHexLower c = true) : isWs c = false := by
  by_contra hw
  rcases isWs_cases (Bool.of_not_eq_false hw) with rfl | rfl | rfl | rfl | rfl | rfl <;>
    exact absurd h (by decide)

/-! ## The rewriter on well-formed declaration lines -/

theorem updMatchSx_shell (n x : List Char) :
    StagexUpdater.updMatch n ("FROM stagex/".data ++ x) =
      updCore [' '] "stagex/".data n x := by
  have e1 : ("FROM stagex/".data ++ x) =
      "FROM".data ++ ([' '] ++ ("stagex/".data ++ x)) := rfl
  have e2 : pPlus isWs ([' '] ++ ("stagex/".data ++ x)) =
      some ([' '], "stagex/".data ++ x) := by
    refine pPlus_app (by simp) ?_ ?_
    · intro c hc
      simp only [List.mem_singleton] at hc
      subst hc; decide
    · intro c hc
      have : ("stagex/".data ++ x).take 1 = ['s'] := rfl
      rw [this] at hc
      simp only [List.mem_singleton] at hc
      subst hc; decide
  unfold StagexUpdater.updMatch
  rw [e1]
  simp only [dropLit_self, e2]

theorem dropLit_name_clash {n m l2 r2 : List Char}
    (hn : ∀ c ∈ n, c ≠ '@') (hm : ∀ c ∈ m, c ≠ '@') (hne : n ≠ m) :
    dropLit (n ++ '@' :: l2) (m ++ '@' :: r2) = none := by
  induction n generalizing m with
  | nil =>
    cases m with
    | nil => exact absurd rfl hne
    | cons b m2 =>
      have hb : b ≠ '@' := hm b (by simp)
      simp [dropLit, hb]
  | cons a n2 ih =>
    cases m with
    | nil =>
      have ha : a ≠ '@' := hn a (by simp)
      simp [dropLit, Ne.symm ha]
    | cons b m2 =>
      by_cases hba : b = a
      · subst hba
        have : n2 ≠ m2 := by
          intro e; exact hne (by rw [e])
        simp only [List.cons_append, dropLit, if_pos rfl]
        exact ih (fun c hc => hn c (by simp [hc])) (fun c hc => hm c (by simp [hc])) this
      · simp [dropLit, hba]

theorem updCore_clash {w1 pre n m rest2 : List Char}
    (hn : ∀ c ∈ n, c ≠ '@') (hm : ∀ c ∈ m, c ≠ '@') (hne : n ≠ m) :
    updCore w1 pre n (m ++ '@' :: rest2) = none := by
  have hchain : dropLit (n ++ "@sha256:".data) (m ++ '@' :: rest2) = none := by
    have : (n ++ "@sha256:".data) = n ++ '@' :: "sha256:".data := rfl
    rw [this]
    exact dropLit_name_clash hn hm hne
  rw [dropLit_chain] at hchain
  unfold updCore
  rcases hd : dropLit n (m ++ '@' :: rest2) with _ | r2
  · simp only [hd]
  · rw [hd] at hchain
    simp only [Option.bind] at hchain
    simp only [hd, hchain]

theorem updMatchSx_decl_other {n m d al rest : List Char}
    (hn : ∀ c ∈ n, benignChar c) (hm : ∀ c ∈ m, benignChar c) (hne : n ≠ m) :
    StagexUpdater.updMatch n (renderLine (.decl m d al) ++ rest) = none := by
  have e : renderLine (.decl m d al) ++ rest =
      "FROM stagex/".data ++
        (m ++ '@' :: ("sha256:".data ++ d ++ " AS ".data ++ al ++ rest)) := by
    simp [renderLine, List.append_assoc]
  rw [e, updMatchSx_shell]
  exact updCore_clash (fun c hc => ne_of_bool_false (hn c hc) (by decide))
    (fun c hc => ne_of_bool_false (hm c hc) (by decide)) hne

theorem updCore_decl {w1 pre n d al rest : List Char} (hd : hex64 d)
    (hal : benignStr al) (hrest : rest = [] ∨ rest.take 1 = ['\n']) :
    updCore w1 pre n
        (n ++ ("@sha256:".data ++ (d ++ (" AS ".data ++ (al ++ rest))))) =
      some ("FROM".data ++ w1 ++ pre ++ n ++ "@sha256:".data,
            " AS ".data ++ al, rest) := by
  unfold updCore
  have e3 : pExact 64 isHexLower (d ++ (" AS ".data ++ (al ++ rest))) =
      some (d, " AS ".data ++ (al ++ rest)) := pExact_app _ hd.1 hd.2
  have e4 : pPlus isWs (" AS ".data ++ (al ++ rest)) =
      some ([' '], ['A', 'S'] ++ (' ' :: (al ++ rest))) := by
    have : (" AS ".data ++ (al ++ rest)) = [' '] ++ (['A', 'S'] ++ (' ' :: (al ++ rest))) := rfl
    rw [this]
    refine pPlus_app (by simp) ?_ ?_
    · intro c hc; simp only [List.mem_singleton] at hc; subst hc; decide
    · intro c hc; simp only [List.take, List.mem_singleton] at hc; subst hc; decide
  have e5 : pPlus isWs (' ' :: (al ++ rest)) = some ([' '], al ++ rest) := by
    rcases hal with ⟨hne, hbc⟩
    cases al with
    | nil => exact absurd rfl hne
    | cons x xs =>
      have hx : isWs x = false := benignChar_not_ws (hbc x (by simp))
      have e : (' ' :: (x :: xs ++ rest)) = [' '] ++ (x :: (xs ++ rest)) := rfl
      rw [e]
      refine pPlus_app (by simp) ?_ ?_
      · intro c hc; simp only [List.mem_singleton] at hc; subst hc; decide
      · intro c hc
        simp only [List.take, List.mem_singleton] at hc
        subst hc
        simp [hx]
  have e6 : pPlus (fun c => !(c == '\n')) (al ++ rest) = some (al, rest) := by
    refine pPlus_app hal.1 ?_ ?_
    · intro c hc
      have : c ≠ '\n' := ne_of_bool_false (hal.2 c hc) (by decide)
      simpa using this
    · intro c hc
      rcases hrest with rfl | htk
      · simp at hc
      · rw [htk] at hc
        simp only [List.mem_singleton] at hc
        subst hc; decide
  simp only [dropLit_self, e3, e4, e5, e6]
  simp

theorem updMatchSx_decl_self {n d al rest : List Char} (hd : hex64 d)
    (hal : benignStr al) (hrest : rest = [] ∨ rest.take 1 = ['\n']) :
    StagexUpdater.updMatch n (renderLine (.decl n d al) ++ rest) =
      some ("FROM stagex/".data ++ n ++ "@sha256:".data, " AS ".data ++ al, rest) := by
  have e : renderLine (.decl n d al) ++ rest =
      "FROM stagex/".data ++
        (n ++ ("@sha256:".data ++ (d ++ (" AS ".data ++ (al ++ rest))))) := by
    simp [renderLine, List.append_assoc]
  rw [e, updMatchSx_shell, updCore_decl hd hal hrest]
  simp

theorem updMatchSx_none_of_ne_F {n : List Char} {c : Char} {cs : List Char}
    (hc : c ≠ 'F') : StagexUpdater.updMatch n (c :: cs) = none := by
  unfold StagexUpdater.updMatch
  have : dropLit "FROM".data (c :: cs) = none := by
    simp [dropLit, hc]
  simp only [this]

theorem reSubSx_append_noF {n h s r : List Char} (hs : ∀ c ∈ s, c ≠ 'F') :
    StagexUpdater.reSub n h (s ++ r) = s ++ StagexUpdater.reSub n h r := by
  induction s with
  | nil => simp
  | cons c cs ih =>
    have h1 : StagexUpdater.updMatch n (c :: (cs ++ r)) = none :=
      updMatchSx_none_of_ne_F (hs c (by simp))
    rw [List.cons_append, reSubSx_cons_none h h1, ih (fun c hc => hs c (by simp [hc]))]
    simp

theorem declTail_noF {m d al : List Char} (hm : ∀ c ∈ m, benignChar c)
    (hd : ∀ c ∈ d, isHexLower c) (hal : ∀ c ∈ al, benignChar c) :
    ∀ c ∈ "ROM stagex/".data ++ m ++ "@sha256:".data ++ d ++ " AS ".data ++ al,
      c ≠ 'F' := by
  have l1 : ∀ c ∈ "ROM stagex/".data, c ≠ 'F' := by decide
  have l2 : ∀ c ∈ "@sha256:".data, c ≠ 'F' := by decide
  have l3 : ∀ c ∈ " AS ".data, c ≠ 'F' := by decide
  intro c hc
  simp only [List.append_assoc, List.mem_append] at hc
  rcases hc with h | h | h | h | h | h
  · exact l1 c h
  · exact ne_of_bool_false (hm c h) (by decide)
  · exact l2 c h
  · exact ne_of_bool_false (hd c h) (by decide)
  · exact l3 c h
  · exact ne_of_bool_false (hal c h) (by decide)

theorem renderLine_decl_split (m d al : List Char) :
    renderLine (.decl m d al) =
      'F' :: ("ROM stagex/".data ++ m ++ "@sha256:".data ++ d ++ " AS ".data ++ al) := by
  simp [renderLine]

theorem reSubSx_decl_other {n nh m d al rest : List Char}
    (hn : ∀ c ∈ n, benignChar c) (hm : ∀ c ∈ m, benignChar c) (hne : n ≠ m)
    (hd : ∀ c ∈ d, isHexLower c) (hal : ∀ c ∈ al, benignChar c) :
    StagexUpdater.reSub n nh (renderLine (.decl m d al) ++ rest) =
      renderLine (.decl m d al) ++ StagexUpdater.reSub n nh rest := by
  have h0 : StagexUpdater.updMatch n (renderLine (.decl m d al) ++ rest) = none :=
    updMatchSx_decl_other hn hm hne
  rw [renderLine_decl_split] at h0 ⊢
  rw [List.cons_append] at h0 ⊢
  rw [reSubSx_cons_none nh h0, reSubSx_append_noF (declTail_noF hm hd hal)]
  simp [List.append_assoc]

theorem reSubSx_decl_self {n nh d al rest : List Char} (hd : hex64 d)
    (hal : benignStr al) (hrest : rest = [] ∨ rest.take 1 = ['\n']) :
    StagexUpdater.reSub n nh (renderLine (.decl n d al) ++ rest) =
      renderLine (.decl n nh al) ++ StagexUpdater.reSub n nh rest := by
  rw [reSubSx_match (updMatchSx_decl_self hd hal hrest)]
  simp [renderLine, List.append_assoc]

theorem reSubSx_line {n nh : List Char} (hn : ∀ c ∈ n, benignChar c)
    (l : LineKind) (hb : benignLine l) (rest : List Char)
    (hrest : rest = [] ∨ rest.take 1 = ['\n']) :
    StagexUpdater.reSub n nh (renderLine l ++ rest) =
      renderLine (updLine n nh l) ++ StagexUpdater.reSub n nh rest := by
  cases l with
  | decl m d al =>
    rcases hb with ⟨hm, hd, hal⟩
    by_cases hmn : m = n
    · subst hmn
      rw [reSubSx_decl_self hd hal hrest]
      simp [updLine]
    · rw [reSubSx_decl_other hn hm.2 (fun e => hmn e.symm) hd.2 hal.2]
      simp [updLine, hmn]
  | raw s =>
    have hF : ∀ c ∈ s, c ≠ 'F' := fun c hc => (hb c hc).1
    rw [show renderLine (LineKind.raw s) = s from rfl, reSubSx_append_noF hF]
    rfl

theorem reSubSx_newline (n nh R : List Char) :
    StagexUpdater.reSub n nh ('\n' :: R) = '\n' :: StagexUpdater.reSub n nh R :=
  reSubSx_cons_none nh (updMatchSx_none_of_ne_F (by decide))

theorem reSubSx_renderText {n nh : List Char} (hn : ∀ c ∈ n, benignChar c) :
    ∀ ls : List LineKind, (∀ l ∈ ls, benignLine l) →
      StagexUpdater.reSub n nh (renderText ls) =
        renderText (ls.map (updLine n nh)) := by
  intro ls
  induction ls with
  | nil => intro _; rfl
  | cons l ls ih =>
    intro hb
    cases ls with
    | nil =>
      have e : renderText [l] = renderLine l ++ [] := by simp [renderText]
      rw [e, reSubSx_line hn l (hb l (by simp)) [] (Or.inl rfl)]
      simp [renderText, StagexUpdater.reSub, subAux_nil]
    | cons l2 ls2 =>
      have e : renderText (l :: l2 :: ls2) =
          renderLine l ++ ('\n' :: renderText (l2 :: ls2)) := rfl
      rw [e, reSubSx_line hn l (hb l (by simp)) ('\n' :: renderText (l2 :: ls2))
        (Or.inr rfl), reSubSx_newline, ih (fun x hx => hb x (by simp [hx]))]
      rfl

theorem benignLine_updLine {p1 p2 : List Char} (h2 : hex64 p2) (l : LineKind)
    (hb : benignLine l) : benignLine (updLine p1 p2 l) := by
  cases l with
  | decl m d al =>
    rcases hb with ⟨hm, hd, hal⟩
    refine ⟨hm, ?_, hal⟩
    by_cases h : m = p1 <;> simp [updLine, h, hd, h2]
  | raw s => exact hb

theorem applyUpdatesSx_renderText (us : List (List Char × List Char))
    (hus : ∀ p ∈ us, (∀ c ∈ p.1, benignChar c) ∧ hex64 p.2) :
    ∀ ls : List LineKind, (∀ l ∈ ls, benignLine l) →
      us.foldl (fun c p => StagexUpdater.reSub p.1 p.2 c) (renderText ls) =
        renderText (ls.map (lineFold us)) := by
  induction us with
  | nil =>
    intro ls _
    simp only [List.foldl_nil]
    have hid : lineFold ([] : List (List Char × List Char)) = id := by
      funext l; rfl
    rw [hid, List.map_id]
  | cons u us ih =>
    intro ls hb
    have hu := hus u (by simp)
    have hrec := ih (fun p hp => hus p (by simp [hp])) (ls.map (updLine u.1 u.2))
      (by
        intro l hl
        rcases List.mem_map.mp hl with ⟨l0, hl0, rfl⟩
        exact benignLine_updLine hu.2 l0 (hb l0 hl0))
    simp only [List.foldl_cons]
    rw [reSubSx_renderText hu.1 ls hb, hrec, List.map_map]
    rfl

theorem lineFold_decl (us : List (List Char × List Char)) (m d al : List Char) :
    lineFold us (.decl m d al) = .decl m (lastVal us m d) al := by
  induction us generalizing d with
  | nil => rfl
  | cons p us ih =>
    have step : lineFold (p :: us) (.decl m d al) =
        lineFold us (.decl m (if m = p.1 then p.2 else d) al) := rfl
    have step2 : lastVal (p :: us) m d = lastVal us m (if p.1 = m then p.2 else d) := rfl
    rw [step, ih, step2]
    by_cases h : m = p.1
    · rw [if_pos h, if_pos h.symm]
    · rw [if_neg h, if_neg (fun e => h e.symm)]

theorem lineFold_raw (us : List (List Char × List Char)) (s : List Char) :
    lineFold us (.raw s) = .raw s := by
  induction us with
  | nil => rfl
  | cons p us ih =>
    simp only [lineFold, List.foldl_cons, updLine] at ih ⊢
    exact ih

theorem lastVal_getD (us : List (List Char × List Char)) (m d : List Char) :
    lastVal us m d = (lastHit us m).getD d := by
  induction us generalizing d with
  | nil => rfl
  | cons p us ih =>
    simp only [lastVal, List.foldl_cons, lastHit] at ih ⊢
    rw [ih]
    rcases lastHit us m with _ | v
    · by_cases h : p.1 = m <;> simp [h]
    · simp

theorem lastVal_idem (us : List (List Char × List Char)) (m d : List Char) :
    lastVal us m (lastVal us m d) = lastVal us m d := by
  rw [lastVal_getD, lastVal_getD]
  rcases lastHit us m with _ | v <;> simp

theorem lineFold_idem (us : List (List Char × List Char)) (l : LineKind) :
    lineFold us (lineFold us l) = lineFold us l := by
  cases l with
  | decl m d al => rw [lineFold_decl, lineFold_decl, lastVal_idem]
  | raw s => rw [lineFold_raw, lineFold_raw]

/-! ## Claim support: identity and projection lemmas -/

theorem reSubSx_id_of_noMatch {n nh t : List Char}
    (h : anyMatch (StagexUpdater.updMatch n) t = false) :
    StagexUpdater.reSub n nh t = t := by
  induction t with
  | nil => rfl
  | cons c cs ih =>
    rcases hm : StagexUpdater.updMatch n (c :: cs) with _ | v
    · simp only [anyMatch, hm, Option.isSome_none, Bool.false_or] at h
      rw [reSubSx_cons_none nh hm, ih h]
    · rw [anyMatch, hm] at h
      simp at h

theorem applyUpdatesSx_id {content : List Char} {us : List (List Char × List Char)}
    (h : ∀ p ∈ us, anyMatch (StagexUpdater.updMatch p.1) content = false) :
    us.foldl (fun c p => StagexUpdater.reSub p.1 p.2 c) content = content := by
  induction us with
  | nil => rfl
  | cons u us ih =>
    simp only [List.foldl_cons]
    rw [reSubSx_id_of_noMatch (h u (by simp))]
    exact ih (fun p hp => h p (by simp [hp]))

theorem ucSx_fst (path content : List Char) (us : List (List Char × List Char)) :
    (StagexUpdater.update_containerfile path content us).1 =
      us.foldl (fun c p => StagexUpdater.reSub p.1 p.2 c) content := by
  by_cases h : List.foldl (fun c p => StagexUpdater.reSub p.1 p.2 c) content us ≠ content
  · simp [StagexUpdater.update_containerfile, h]
  · simp [StagexUpdater.update_containerfile, h]

theorem benignLine_lineFold (us : List (List Char × List Char))
    (hus : ∀ p ∈ us, hex64 p.2) :
    ∀ l : LineKind, benignLine l → benignLine (lineFold us l) := by
  induction us with
  | nil => intro l hb; exact hb
  | cons u us ih =>
    intro l hb
    have step : lineFold (u :: us) l = lineFold us (updLine u.1 u.2 l) := rfl
    rw [step]
    exact ih (fun p hp => hus p (by simp [hp])) _
      (benignLine_updLine (hus u (by simp)) l hb)

/-! ## The x86-variant rewriter on well-formed declaration lines

The x86 update pattern also matches `FROM stagex/...` lines (its `[^/]+/`
prefix alternative consumes `stagex/`), and behaves on well-formed lines
exactly like the other variant. -/

theorem updMatchX86_shell (n x : List Char) :
    X86Updater.updMatch n ("FROM stagex/".data ++ x) =
      ((updCore [' '] "stagex/".data n x) <|>
        updCore [' '] [] n ("stagex/".data ++ x)) := by
  have e1 : ("FROM stagex/".data ++ x) =
      "FROM".data ++ ([' '] ++ ("stagex/".data ++ x)) := rfl
  have e2 : pPlus isWs ([' '] ++ ("stagex/".data ++ x)) =
      some ([' '], "stagex/".data ++ x) := by
    refine pPlus_app (by simp) ?_ ?_
    · intro c hc
      simp only [List.mem_singleton] at hc
      subst hc; decide
    · intro c hc
      have : ("stagex/".data ++ x).take 1 = ['s'] := rfl
      rw [this] at hc
      simp only [List.mem_singleton] at hc
      subst hc; decide
  have e3 : dropLit "${STAGEX_REG}/".data ("stagex/".data ++ x) = none := rfl
  have e4 : pPlus (fun c => !(c == '/')) ("stagex/".data ++ x) =
      some ("stagex".data, '/' :: x) := by
    have e : "stagex/".data ++ x = "stagex".data ++ ('/' :: x) := rfl
    rw [e]
    refine pPlus_app (by decide) (by decide) ?_
    intro c hc
    simp only [List.take, List.mem_singleton] at hc
    subst hc; decide
  unfold X86Updater.updMatch
  rw [e1]
  simp only [dropLit_self, e2, e3, e4]
  rfl

theorem updMatchX86_decl_self {n d al rest : List Char} (hd : hex64 d)
    (hal : benignStr al) (hrest : rest = [] ∨ rest.take 1 = ['\n']) :
    X86Updater.updMatch n (renderLine (.decl n d al) ++ rest) =
      some ("FROM stagex/".data ++ n ++ "@sha256:".data, " AS ".data ++ al, rest) := by
  have e : renderLine (.decl n d al) ++ rest =
      "FROM stagex/".data ++
        (n ++ ("@sha256:".data ++ (d ++ (" AS ".data ++ (al ++ rest))))) := by
    simp [renderLine, List.append_assoc]
  rw [e, updMatchX86_shell, updCore_decl hd hal hrest]
  simp [Option.orElse]

theorem updMatchX86_decl_other {n m d al rest : List Char}
    (hn : ∀ c ∈ n, benignChar c) (hm : ∀ c ∈ m, benignChar c) (hne : n ≠ m) :
    X86Updater.updMatch n (renderLine (.decl m d al) ++ rest) = none := by
  have e : renderLine (.decl m d al) ++ rest =
      "FROM stagex/".data ++
        (m ++ '@' :: ("sha256:".data ++ d ++ " AS ".data ++ al ++ rest)) := by
    simp [renderLine, List.append_assoc]
  rw [e, updMatchX86_shell]
  have hn2 : ∀ c ∈ n, c ≠ '@' :=
    fun c hc => ne_of_bool_false (hn c hc) (by decide)
  have hm2 : ∀ c ∈ m, c ≠ '@' :=
    fun c hc => ne_of_bool_false (hm c hc) (by decide)
  have h1 : updCore [' '] "stagex/".data n
      (m ++ '@' :: ("sha256:".data ++ d ++ " AS ".data ++ al ++ rest)) = none :=
    updCore_clash hn2 hm2 hne
  have h2 : updCore [' '] [] n ("stagex/".data ++
      (m ++ '@' :: ("sha256:".data ++ d ++ " AS ".data ++ al ++ rest))) = none := by
    have e2 : "stagex/".data ++
        (m ++ '@' :: ("sha256:".data ++ d ++ " AS ".data ++ al ++ rest)) =
        ("stagex/".data ++ m) ++
          '@' :: ("sha256:".data ++ d ++ " AS ".data ++ al ++ rest) := by
      simp [List.append_assoc]
    rw [e2]
    refine updCore_clash hn2 ?_ ?_
    · have hlit : ∀ c ∈ "stagex/".data, c ≠ '@' := by decide
      intro c hc
      rcases List.mem_append.mp hc with h | h
      · exact hlit c h
      · exact hm2 c h
    · intro heq
      have hsl : '/' ∈ "stagex/".data ++ m := by
        apply List.mem_append.mpr
        left
        decide
      rw [← heq] at hsl
      have := hn '/' hsl
      exact absurd this (by decide)
  rw [h1, h2]
  rfl

theorem updMatchX86_none_of_ne_F {n : List Char} {c : Char} {cs : List Char}
    (hc : c ≠ 'F') : X86Updater.updMatch n (c :: cs) = none := by
  unfold X86Updater.updMatch
  have : dropLit "FROM".data (c :: cs) = none := by
    simp [dropLit, hc]
  simp only [this]

theorem reSubX86_nil (name h : List Char) : X86Updater.reSub name h [] = [] := rfl

theorem reSubX86_cons_none {name : List Char} (h : List Char) {c : Char} {cs : List Char}
    (hm : X86Updater.updMatch name (c :: cs) = none) :
    X86Updater.reSub name h (c :: cs) = c :: X86Updater.reSub name h cs := by
  unfold X86Updater.reSub
  simp only [List.length_cons, subAux, hm]

theorem reSubX86_match {name h s g1 g2 rest : List Char}
    (hm : X86Updater.updMatch name s = some (g1, g2, rest)) :
    X86Updater.reSub name h s =
      g1 ++ h ++ g2 ++ X86Updater.reSub name h rest := by
  obtain ⟨d, hs, hg1⟩ := updMatchX86_sound hm
  have hlen := updMatchX86_rest_lt name s g1 g2 rest hm
  cases s with
  | nil => simp at hlen
  | cons c cs =>
    unfold X86Updater.reSub
    simp only [List.length_cons, subAux, hm]
    simp only [List.length_cons] at hlen
    rw [subAux_congr (updMatchX86_rest_lt name) h cs.length rest.length rest (by omega)
      (le_refl _)]

theorem reSubX86_append_noF {n h s r : List Char} (hs : ∀ c ∈ s, c ≠ 'F') :
    X86Updater.reSub n h (s ++ r) = s ++ X86Updater.reSub n h r := by
  induction s with
  | nil => simp
  | cons c cs ih =>
    have h1 : X86Updater.updMatch n (c :: (cs ++ r)) = none :=
      updMatchX86_none_of_ne_F (hs c (by simp))
    rw [List.cons_append, reSubX86_cons_none h h1, ih (fun c hc => hs c (by simp [hc]))]
    simp

theorem reSubX86_decl_other {n nh m d al rest : List Char}
    (hn : ∀ c ∈ n, benignChar c) (hm : ∀ c ∈ m, benignChar c) (hne : n ≠ m)
    (hd : ∀ c ∈ d, isHexLower c) (hal : ∀ c ∈ al, benignChar c) :
    X86Updater.reSub n nh (renderLine (.decl m d al) ++ rest) =
      renderLine (.decl m d al) ++ X86Updater.reSub n nh rest := by
  have h0 : X86Updater.updMatch n (renderLine (.decl m d al) ++ rest) = none :=
    updMatchX86_decl_other hn hm hne
  rw [renderLine_decl_split] at h0 ⊢
  rw [List.cons_append] at h0 ⊢
  rw [reSubX86_cons_none nh h0, reSubX86_append_noF (declTail_noF hm hd hal)]
  simp [List.append_assoc]

theorem reSubX86_decl_self {n nh d al rest : List Char} (hd : hex64 d)
    (hal : benignStr al) (hrest : rest = [] ∨ rest.take 1 = ['\n']) :
    X86Updater.reSub n nh (renderLine (.decl n d al) ++ rest) =
      renderLine (.decl n nh al) ++ X86Updater.reSub n nh rest := by
  rw [reSubX86_match (updMatchX86_decl_self hd hal hrest)]
  simp [renderLine, List.append_assoc]

theorem reSubX86_line {n nh : List Char} (hn : ∀ c ∈ n, benignChar c)
    (l : LineKind) (hb : benignLine l) (rest : List Char)
    (hrest : rest = [] ∨ rest.take 1 = ['\n']) :
    X86Updater.reSub n nh (renderLine l ++ rest) =
      renderLine (updLine n nh l) ++ X86Updater.reSub n nh rest := by
  cases l with
  | decl m d al =>
    rcases hb with ⟨hm, hd, hal⟩
    by_cases hmn : m = n
    · subst hmn
      rw [reSubX86_decl_self hd hal hrest]
      simp [updLine]
    · rw [reSubX86_decl_other hn hm.2 (fun e : n = m => hmn e.symm) hd.2 hal.2]
      simp [updLine, hmn]
  | raw s =>
    have hF : ∀ c ∈ s, c ≠ 'F' := fun c hc => (hb c hc).1
    rw [show renderLine (LineKind.raw s) = s from rfl, reSubX86_append_noF hF]
    rfl

theorem reSubX86_newline (n nh R : List Char) :
    X86Updater.reSub n nh ('\n' :: R) = '\n' :: X86Updater.reSub n nh R :=
  reSubX86_cons_none nh (updMatchX86_none_of_ne_F (by decide))

theorem reSubX86_renderText {n nh : List Char} (hn : ∀ c ∈ n, benignChar c) :
    ∀ ls : List LineKind, (∀ l ∈ ls, benignLine l) →
      X86Updater.reSub n nh (renderText ls) =
        renderText (ls.map (updLine n nh)) := by
  intro ls
  induction ls with
  | nil => intro _; rfl
  | cons l ls ih =>
    intro hb
    cases ls with
    | nil =>
      have e : renderText [l] = renderLine l ++ [] := by simp [renderText]
      rw [e, reSubX86_line hn l (hb l (by simp)) [] (Or.inl rfl)]
      simp [renderText, X86Updater.reSub, subAux_nil]
    | cons l2 ls2 =>
      have e : renderText (l :: l2 :: ls2) =
          renderLine l ++ ('\n' :: renderText (l2 :: ls2)) := rfl
      rw [e, reSubX86_line hn l (hb l (by simp)) ('\n' :: renderText (l2 :: ls2))
        (Or.inr rfl), reSubX86_newline, ih (fun x hx => hb x (by simp [hx]))]
      rfl

theorem applyUpdatesX86_renderText (us : List (List Char × List Char))
    (hus : ∀ p ∈ us, (∀ c ∈ p.1, benignChar c) ∧ hex64 p.2) :
    ∀ ls : List LineKind, (∀ l ∈ ls, benignLine l) →
      us.foldl (fun c p => X86Updater.reSub p.1 p.2 c) (renderText ls) =
        renderText (ls.map (lineFold us)) := by
  induction us with
  | nil =>
    intro ls _
    simp only [List.foldl_nil]
    have hid : lineFold ([] : List (List Char × List Char)) = id := by
      funext l; rfl
    rw [hid, List.map_id]
  | cons u us ih =>
    intro ls hb
    have hu := hus u (by simp)
    have hrec := ih (fun p hp => hus p (by simp [hp])) (ls.map (updLine u.1 u.2))
      (by
        intro l hl
        rcases List.mem_map.mp hl with ⟨l0, hl0, rfl⟩
        exact benignLine_updLine hu.2 l0 (hb l0 hl0))
    simp only [List.foldl_cons]
    rw [reSubX86_renderText hu.1 ls hb, hrec, List.map_map]
    rfl

theorem reSubX86_id_of_noMatch {n nh t : List Char}
    (h : anyMatch (X86Updater.updMatch n) t = false) :
    X86Updater.reSub n nh t = t := by
  induction t with
  | nil => rfl
  | cons c cs ih =>
    rcases hm : X86Updater.updMatch n (c :: cs) with _ | v
    · simp only [anyMatch, hm, Option.isSome_none, Bool.false_or] at h
      rw [reSubX86_cons_none nh hm, ih h]
    · rw [anyMatch, hm] at h
      simp at h

theorem applyUpdatesX86_id {content : List Char} {us : List (List Char × List Char)}
    (h : ∀ p ∈ us, anyMatch (X86Updater.updMatch p.1) content = false) :
    us.foldl (fun c p => X86Updater.reSub p.1 p.2 c) content = content := by
  induction us with
  | nil => rfl
  | cons u us ih =>
    simp only [List.foldl_cons]
    rw [reSubX86_id_of_noMatch (h u (by simp))]
    exact ih (fun p hp => h p (by simp [hp]))

theorem ucX86_fst (path content : List Char) (us : List (List Char × List Char)) :
    (X86Updater.update_containerfile path content us).1 =
      us.foldl (fun c p => X86Updater.reSub p.1 p.2 c) content := by
  by_cases h : List.foldl (fun c p => X86Updater.reSub p.1 p.2 c) content us ≠ content
  · simp [X86Updater.update_containerfile, h]
  · simp [X86Updater.update_containerfile, h]

/-! ## Claims C1, C5, C6, C7 -/

/-- Claim C1 (corrected, amended form).  For build files whose lines are
well-formed (single-line declarations with benign names, 64-hex digests
and benign aliases, and other lines containing no `F`), the replacement
`re.sub` of the File Rewriter — in both variants — for image `n` maps
each declaration line of `n` to the same line with only the digest
replaced and leaves every other line — in particular every declaration of
any other image `m ≠ n`, such as a name having `n` as a prefix or
suffix — byte-identical. -/
theorem claim_C1 :
    ∀ (ls : List LineKind) (n nh : List Char),
      (∀ l ∈ ls, benignLine l) → benignStr n →
      StagexUpdater.reSub n nh (renderText ls) = renderText (ls.map (updLine n nh)) ∧
      X86Updater.reSub n nh (renderText ls) = renderText (ls.map (updLine n nh)) ∧
      (∀ m d al, m ≠ n → updLine n nh (.decl m d al) = .decl m d al) := by
  intro ls n nh hb hn
  refine ⟨reSubSx_renderText hn.2 ls hb, reSubX86_renderText hn.2 ls hb, ?_⟩
  intro m d al hmn
  simp [updLine, hmn]

set_option maxRecDepth 100000 in
/-- Witness for C1: the `foo` / `foo-extra` instance of the claim.  The
update of `foo` rewrites only `foo`'s digest; `foo-extra`'s line is
byte-identical. -/
theorem claim_C1_witness :
    (∀ l ∈ [LineKind.decl "foo".data hexA "x".data,
            LineKind.decl "foo-extra".data hexA "y".data], benignLine l) ∧
    benignStr "foo".data ∧
    StagexUpdater.reSub "foo".data hexB
        (renderText [LineKind.decl "foo".data hexA "x".data,
                     LineKind.decl "foo-extra".data hexA "y".data]) =
      renderText [LineKind.decl "foo".data hexB "x".data,
                  LineKind.decl "foo-extra".data hexA "y".data] := by
  refine ⟨by decide, by decide, ?_⟩
  have h := (claim_C1 [LineKind.decl "foo".data hexA "x".data,
      LineKind.decl "foo-extra".data hexA "y".data] "foo".data hexB
      (by decide) (by decide)).1
  rw [h]
  decide

set_option maxRecDepth 100000 in
/-- Counterexample to C1 as literally stated: `cexSharedLine` is, per the
Extractor, the (unique) declaration line of image `foo-extra`, yet the
rewriter's update of `foo` alters it, because the alias text of the line
contains a complete embedded `foo` declaration. -/
theorem claim_C1_cex :
    StagexUpdater.extract_stagex_images [cexSharedLine] =
      [("foo-extra".data, hexA, cexSharedLine)] ∧
    StagexUpdater.reSub "foo".data hexB cexSharedLine = cexSharedLineAfter ∧
    cexSharedLineAfter ≠ cexSharedLine := by
  refine ⟨by decide, by decide, by decide⟩

/-- Claim C5 (confirmed).  If no entry of the update map matches any
digest-pinned declaration occurrence in the text (in particular for the
empty map), `update_containerfile` — in both variants — returns the text
byte-identical and performs no file writes — no backup, no rewrite. -/
theorem claim_C5 :
    ∀ (path content : List Char) (updates : List (List Char × List Char)),
      ((∀ p ∈ updates, anyMatch (StagexUpdater.updMatch p.1) content = false) →
        StagexUpdater.update_containerfile path content updates = (content, [])) ∧
      ((∀ p ∈ updates, anyMatch (X86Updater.updMatch p.1) content = false) →
        X86Updater.update_containerfile path content updates = (content, [])) := by
  intro path content updates
  constructor
  · intro h
    unfold StagexUpdater.update_containerfile
    rw [applyUpdatesSx_id h]
    simp
  · intro h
    unfold X86Updater.update_containerfile
    rw [applyUpdatesX86_id h]
    simp

set_option maxRecDepth 100000 in
/-- Witness for C5: an update for `bar` does not match a file declaring
only `foo`, so the file is untouched; the empty map case likewise. -/
theorem claim_C5_witness :
    (∀ p ∈ [("bar".data, hexB)],
      anyMatch (StagexUpdater.updMatch p.1)
        ("FROM stagex/foo@sha256:".data ++ hexA ++ " AS x".data) = false) ∧
    StagexUpdater.update_containerfile "Containerfile".data
        ("FROM stagex/foo@sha256:".data ++ hexA ++ " AS x".data)
        [("bar".data, hexB)] =
      ("FROM stagex/foo@sha256:".data ++ hexA ++ " AS x".data, []) :=
  ⟨by decide,
   (claim_C5 "Containerfile".data _ [("bar".data, hexB)]).1 (by decide)⟩

/-- Claim C6 (corrected, amended form).  For well-formed build files and
update maps whose keys are benign image names and whose values are 64-hex
digests, `update_containerfile` — in both variants — is idempotent on the
file content. -/
theorem claim_C6 :
    ∀ (path : List Char) (ls : List LineKind) (us : List (List Char × List Char)),
      (∀ l ∈ ls, benignLine l) →
      (∀ p ∈ us, benignStr p.1 ∧ hex64 p.2) →
      (StagexUpdater.update_containerfile path
          (StagexUpdater.update_containerfile path (renderText ls) us).1 us).1 =
        (StagexUpdater.update_containerfile path (renderText ls) us).1 ∧
      (X86Updater.update_containerfile path
          (X86Updater.update_containerfile path (renderText ls) us).1 us).1 =
        (X86Updater.update_containerfile path (renderText ls) us).1 := by
  intro path ls us hb hus
  have hus1 : ∀ p ∈ us, (∀ c ∈ p.1, benignChar c) ∧ hex64 p.2 :=
    fun p hp => ⟨(hus p hp).1.2, (hus p hp).2⟩
  have hus2 : ∀ p ∈ us, hex64 p.2 := fun p hp => (hus p hp).2
  have hbmap : ∀ l ∈ ls.map (lineFold us), benignLine l := fun l hl => by
    rcases List.mem_map.mp hl with ⟨l0, hl0, rfl⟩
    exact benignLine_lineFold us hus2 l0 (hb l0 hl0)
  have hmaps : (ls.map (lineFold us)).map (lineFold us) = ls.map (lineFold us) := by
    rw [List.map_map]
    apply List.map_congr_left
    intro l _
    exact lineFold_idem us l
  constructor
  · rw [ucSx_fst, ucSx_fst, applyUpdatesSx_renderText us hus1 ls hb]
    rw [applyUpdatesSx_renderText us hus1 (ls.map (lineFold us)) hbmap]
    rw [hmaps]
  · rw [ucX86_fst, ucX86_fst, applyUpdatesX86_renderText us hus1 ls hb]
    rw [applyUpdatesX86_renderText us hus1 (ls.map (lineFold us)) hbmap]
    rw [hmaps]

set_option maxRecDepth 100000 in
/-- Witness for C6: idempotence at a concrete two-line file and two-entry
update map. -/
theorem claim_C6_witness :
    (∀ l ∈ [LineKind.decl "foo".data hexA "x".data,
            LineKind.decl "bar".data hexC "y".data], benignLine l) ∧
    (∀ p ∈ [("foo".data, hexB), ("baz".data, hexD)], benignStr p.1 ∧ hex64 p.2) ∧
    (StagexUpdater.update_containerfile "Containerfile".data
        (StagexUpdater.update_containerfile "Containerfile".data
          (renderText [LineKind.decl "foo".data hexA "x".data,
                       LineKind.decl "bar".data hexC "y".data])
          [("foo".data, hexB), ("baz".data, hexD)]).1
        [("foo".data, hexB), ("baz".data, hexD)]).1 =
      (StagexUpdater.update_containerfile "Containerfile".data
        (renderText [LineKind.decl "foo".data hexA "x".data,
                     LineKind.decl "bar".data hexC "y".data])
        [("foo".data, hexB), ("baz".data, hexD)]).1 :=
  ⟨by decide, by decide,
   (claim_C6 "Containerfile".data _ _ (by decide) (by decide)).1⟩

set_option maxRecDepth 100000 in
/-- Counterexample to C6 as literally stated: an update map whose VALUES
are all 64-character lowercase hex digests (as required by the claim) but
whose keys are adversarial strings; applying `update_containerfile` twice
to a two-line file of well-formed declarations yields different content
than applying it once. -/
theorem claim_C6_cex :
    (∀ p ∈ cexIdemUpdates, p.2.length = 64 ∧ ∀ c ∈ p.2, isHexLower c) ∧
    (StagexUpdater.update_containerfile "Containerfile".data
        (StagexUpdater.update_containerfile "Containerfile".data
          cexIdemText cexIdemUpdates).1 cexIdemUpdates).1 ≠
      (StagexUpdater.update_containerfile "Containerfile".data
        cexIdemText cexIdemUpdates).1 := by
  exact ⟨by decide, by decide⟩

/-- Claim C7 (confirmed).  In every run of `update_containerfile` (either
variant) in which the replacements changed the text, exactly two writes
happen, the backup
(`<path>.backup`, carrying the original content) strictly before the
rewritten file (`<path>`, carrying the new content); in every run where
nothing changed, no file is written. -/
theorem claim_C7 :
    ∀ (path content : List Char) (updates : List (List Char × List Char)),
      (((StagexUpdater.update_containerfile path content updates).1 ≠ content →
        (StagexUpdater.update_containerfile path content updates).2 =
          [⟨path ++ ".backup".data, content⟩,
           ⟨path, (StagexUpdater.update_containerfile path content updates).1⟩]) ∧
      ((StagexUpdater.update_containerfile path content updates).1 = content →
        (StagexUpdater.update_containerfile path content updates).2 = [])) ∧
      (((X86Updater.update_containerfile path content updates).1 ≠ content →
        (X86Updater.update_containerfile path content updates).2 =
          [⟨path ++ ".backup".data, content⟩,
           ⟨path, (X86Updater.update_containerfile path content updates).1⟩]) ∧
      ((X86Updater.update_containerfile path content updates).1 = content →
        (X86Updater.update_containerfile path content updates).2 = [])) := by
  intro path content updates
  constructor
  · unfold StagexUpdater.update_containerfile
    dsimp only
    split
    · exact ⟨fun _ => rfl, fun he => absurd he (by assumption)⟩
    · refine ⟨fun hne => ?_, fun _ => rfl⟩
      exact absurd (by assumption : ¬ _ ≠ content) (by simpa using hne)
  · unfold X86Updater.update_containerfile
    dsimp only
    split
    · exact ⟨fun _ => rfl, fun he => absurd he (by assumption)⟩
    · refine ⟨fun hne => ?_, fun _ => rfl⟩
      exact absurd (by assumption : ¬ _ ≠ content) (by simpa using hne)

set_option maxRecDepth 100000 in
/-- Witness for C7: a real update writes backup then file, in that order;
the empty map writes nothing. -/
theorem claim_C7_witness :
    ((StagexUpdater.update_containerfile "Containerfile".data
        ("FROM stagex/foo@sha256:".data ++ hexA ++ " AS x".data)
        [("foo".data, hexB)]).1 ≠
      ("FROM stagex/foo@sha256:".data ++ hexA ++ " AS x".data)) ∧
    (StagexUpdater.update_containerfile "Containerfile".data
        ("FROM stagex/foo@sha256:".data ++ hexA ++ " AS x".data)
        [("foo".data, hexB)]).2 =
      [⟨"Containerfile".data ++ ".backup".data,
        "FROM stagex/foo@sha256:".data ++ hexA ++ " AS x".data⟩,
       ⟨"Containerfile".data,
        (StagexUpdater.update_containerfile "Containerfile".data
          ("FROM stagex/foo@sha256:".data ++ hexA ++ " AS x".data)
          [("foo".data, hexB)]).1⟩] ∧
    (StagexUpdater.update_containerfile "Containerfile".data
        ("FROM stagex/foo@sha256:".data ++ hexA ++ " AS x".data)
        ([] : List (List Char × List Char))).1 =
      ("FROM stagex/foo@sha256:".data ++ hexA ++ " AS x".data) ∧
    (StagexUpdater.update_containerfile "Containerfile".data
        ("FROM stagex/foo@sha256:".data ++ hexA ++ " AS x".data)
        ([] : List (List Char × List Char))).2 = [] := by
  refine ⟨by decide, (claim_C7 "Containerfile".data _ _).1.1 (by decide), by decide,
    (claim_C7 "Containerfile".data _ _).1.2 (by decide)⟩

/-! ## Claim C8: the main driver -/

theorem dictInsert_append {d : List (List Char × List Char)} {k v : List Char}
    (h : ∀ p ∈ d, p.1 ≠ k) : dictInsert d k v = d ++ [(k, v)] := by
  induction d with
  | nil => rfl
  | cons p d ih =>
    have hp : p.1 ≠ k := h p (by simp)
    simp only [dictInsert, if_neg hp, List.cons_append]
    rw [ih (fun q hq => h q (by simp [hq]))]

theorem processImages_snd (resolve : List Char → Option (List Char)) :
    ∀ (es : List (List Char × List Char × List Char))
      (u : List (List Char × List Char)) (f : List (List Char)),
      (processImages resolve es (u, f)).2 =
        f ++ (es.filter (fun e => (resolve e.1).isNone)).map (fun e => e.1) := by
  intro es
  induction es with
  | nil => intro u f; simp [processImages]
  | cons e es ih =>
    intro u f
    rcases hr : resolve e.1 with _ | nh
    · simp only [processImages, hr, List.filter_cons]
      rw [ih]
      simp [hr]
    · simp only [processImages, hr, List.filter_cons]
      by_cases hne : nh ≠ e.2.1
      · rw [if_pos hne, ih]
        simp [hr]
      · rw [if_neg hne, ih]
        simp [hr]

theorem processImages_fst (resolve : List Char → Option (List Char)) :
    ∀ (es : List (List Char × List Char × List Char))
      (u : List (List Char × List Char)) (f : List (List Char)),
      (es.map (fun e => e.1)).Nodup →
      (∀ p ∈ u, ∀ e ∈ es, p.1 ≠ e.1) →
      (processImages resolve es (u, f)).1 = u ++ specUpdates resolve es := by
  intro es
  induction es with
  | nil => intro u f _ _; simp [processImages, specUpdates]
  | cons e es ih =>
    intro u f hnd hdisj
    have hnd2 : (es.map (fun e => e.1)).Nodup := (List.nodup_cons.mp hnd).2
    have hhead : e.1 ∉ es.map (fun e => e.1) := (List.nodup_cons.mp hnd).1
    rcases hr : resolve e.1 with _ | nh
    · simp only [processImages, hr]
      rw [ih u (f ++ [e.1]) hnd2 (fun p hp e2 he2 => hdisj p hp e2 (by simp [he2]))]
      simp [specUpdates, List.filterMap_cons, hr]
    · by_cases hne : nh ≠ e.2.1
      · simp only [processImages, hr, if_pos hne]
        have hins : dictInsert u e.1 nh = u ++ [(e.1, nh)] :=
          dictInsert_append (fun p hp => hdisj p hp e (by simp))
        rw [hins, ih (u ++ [(e.1, nh)]) f hnd2 ?_]
        · have hspec : specUpdates resolve (e :: es) =
              (e.1, nh) :: specUpdates resolve es := by
            simp [specUpdates, List.filterMap_cons, hr, hne]
          rw [hspec]
          simp
        · intro p hp e2 he2
          rcases List.mem_append.mp hp with h1 | h2
          · exact hdisj p h1 e2 (by simp [he2])
          · simp only [List.mem_singleton] at h2
            subst h2
            intro hcontra
            exact hhead (by
              rw [hcontra]
              exact List.mem_map.mpr ⟨e2, he2, rfl⟩)
      · simp only [processImages, hr, if_neg hne]
        rw [ih u f hnd2 (fun p hp e2 he2 => hdisj p hp e2 (by simp [he2]))]
        have hspec : specUpdates resolve (e :: es) = specUpdates resolve es := by
          simp only [specUpdates, List.filterMap_cons, hr]
          simp at hne
          simp [hne]
        rw [hspec]

/-- Claim C8 (confirmed).  The process — in both variants — exits 1 on a
missing/unreadable build file (uncaught `FileNotFoundError`); exits 0
with an empty failure summary when every extracted image resolves; when
some image fails to resolve, prints exactly the failed names (in
extraction order), performs the writes of `update_containerfile` on the
successful differing updates (none when no update map was collected), and
exits 1. -/
theorem claim_C8 :
    ∀ (path : List Char) (resolve : List Char → Option (List Char)),
      (((StagexUpdater.main path none resolve).exitCode = 1 ∧
      (∀ content,
        (∀ e ∈ StagexUpdater.extract_stagex_images (splitNl content),
          (resolve e.1).isSome) →
        (StagexUpdater.main path (some content) resolve).exitCode = 0 ∧
        (StagexUpdater.main path (some content) resolve).failed = []) ∧
      (∀ content,
        (∃ e ∈ StagexUpdater.extract_stagex_images (splitNl content),
          resolve e.1 = none) →
        (StagexUpdater.main path (some content) resolve).exitCode = 1 ∧
        (StagexUpdater.main path (some content) resolve).failed =
          ((StagexUpdater.extract_stagex_images (splitNl content)).filter
            (fun e => (resolve e.1).isNone)).map (fun e => e.1) ∧
        (StagexUpdater.main path (some content) resolve).failed ≠ [] ∧
        (((StagexUpdater.extract_stagex_images (splitNl content)).map
            (fun e => e.1)).Nodup →
          (StagexUpdater.main path (some content) resolve).writes =
            (if specUpdates resolve
                (StagexUpdater.extract_stagex_images (splitNl content)) ≠ []
             then (StagexUpdater.update_containerfile path content
               (specUpdates resolve
                 (StagexUpdater.extract_stagex_images (splitNl content)))).2
             else [])))) ∧
      ((X86Updater.main path none resolve).exitCode = 1 ∧
      (∀ content,
        (∀ e ∈ X86Updater.extract_stagex_images (splitNl content),
          (resolve e.1).isSome) →
        (X86Updater.main path (some content) resolve).exitCode = 0 ∧
        (X86Updater.main path (some content) resolve).failed = []) ∧
      (∀ content,
        (∃ e ∈ X86Updater.extract_stagex_images (splitNl content),
          resolve e.1 = none) →
        (X86Updater.main path (some content) resolve).exitCode = 1 ∧
        (X86Updater.main path (some content) resolve).failed =
          ((X86Updater.extract_stagex_images (splitNl content)).filter
            (fun e => (resolve e.1).isNone)).map (fun e => e.1) ∧
        (X86Updater.main path (some content) resolve).failed ≠ [] ∧
        (((X86Updater.extract_stagex_images (splitNl content)).map
            (fun e => e.1)).Nodup →
          (X86Updater.main path (some content) resolve).writes =
            (if specUpdates resolve
                (X86Updater.extract_stagex_images (splitNl content)) ≠ []
             then (X86Updater.update_containerfile path content
               (specUpdates resolve
                 (X86Updater.extract_stagex_images (splitNl content)))).2
             else []))))) := by
  intro path resolve
  constructor
  · refine ⟨rfl, ?_, ?_⟩
    · intro content hall
      have hfailed : (processImages resolve
          (StagexUpdater.extract_stagex_images (splitNl content)) ([], [])).2 = [] := by
        rw [processImages_snd]
        have : (StagexUpdater.extract_stagex_images (splitNl content)).filter
            (fun e => (resolve e.1).isNone) = [] := by
          rw [List.filter_eq_nil_iff]
          intro e he
          have := hall e he
          simp [Option.isNone_iff_eq_none]
          exact Option.isSome_iff_ne_none.mp this
        rw [this]
        simp
      constructor
      · show (if (processImages resolve _ ([], [])).2 ≠ [] then 1 else 0) = 0
        rw [hfailed]
        simp
      · show (processImages resolve _ ([], [])).2 = []
        exact hfailed
    · intro content hex
      obtain ⟨e0, he0, hr0⟩ := hex
      have hfailed : (processImages resolve
          (StagexUpdater.extract_stagex_images (splitNl content)) ([], [])).2 =
          ((StagexUpdater.extract_stagex_images (splitNl content)).filter
            (fun e => (resolve e.1).isNone)).map (fun e => e.1) := by
        rw [processImages_snd]
        simp
      have hne : ((StagexUpdater.extract_stagex_images (splitNl content)).filter
          (fun e => (resolve e.1).isNone)).map (fun e => e.1) ≠ [] := by
        intro hnil
        have : e0 ∈ (StagexUpdater.extract_stagex_images (splitNl content)).filter
            (fun e => (resolve e.1).isNone) :=
          List.mem_filter.mpr ⟨he0, by simp [hr0]⟩
        rw [List.eq_nil_iff_forall_not_mem] at hnil
        exact hnil e0.1 (List.mem_map.mpr ⟨e0, this, rfl⟩)
      refine ⟨?_, ?_, ?_, ?_⟩
      · show (if (processImages resolve _ ([], [])).2 ≠ [] then 1 else 0) = 1
        rw [hfailed, if_pos hne]
      · exact hfailed
      · show (processImages resolve _ ([], [])).2 ≠ []
        rw [hfailed]; exact hne
      · intro hnd
        have hupd : (processImages resolve
            (StagexUpdater.extract_stagex_images (splitNl content)) ([], [])).1 =
            specUpdates resolve (StagexUpdater.extract_stagex_images (splitNl content)) := by
          rw [processImages_fst resolve _ [] [] hnd (by simp)]
          simp
        show (if (processImages resolve _ ([], [])).1 ≠ [] then
            (StagexUpdater.update_containerfile path content
              (processImages resolve _ ([], [])).1).2 else []) = _
        rw [hupd]
  · refine ⟨rfl, ?_, ?_⟩
    · intro content hall
      have hfailed : (processImages resolve
          (X86Updater.extract_stagex_images (splitNl content)) ([], [])).2 = [] := by
        rw [processImages_snd]
        have : (X86Updater.extract_stagex_images (splitNl content)).filter
            (fun e => (resolve e.1).isNone) = [] := by
          rw [List.filter_eq_nil_iff]
          intro e he
          have := hall e he
          simp [Option.isNone_iff_eq_none]
          exact Option.isSome_iff_ne_none.mp this
        rw [this]
        simp
      constructor
      · show (if (processImages resolve _ ([], [])).2 ≠ [] then 1 else 0) = 0
        rw [hfailed]
        simp
      · show (processImages resolve _ ([], [])).2 = []
        exact hfailed
    · intro content hex
      obtain ⟨e0, he0, hr0⟩ := hex
      have hfailed : (processImages resolve
          (X86Updater.extract_stagex_images (splitNl content)) ([], [])).2 =
          ((X86Updater.extract_stagex_images (splitNl content)).filter
            (fun e => (resolve e.1).isNone)).map (fun e => e.1) := by
        rw [processImages_snd]
        simp
      have hne : ((X86Updater.extract_stagex_images (splitNl content)).filter
          (fun e => (resolve e.1).isNone)).map (fun e => e.1) ≠ [] := by
        intro hnil
        have : e0 ∈ (X86Updater.extract_stagex_images (splitNl content)).filter
            (fun e => (resolve e.1).isNone) :=
          List.mem_filter.mpr ⟨he0, by simp [hr0]⟩
        rw [List.eq_nil_iff_forall_not_mem] at hnil
        exact hnil e0.1 (List.mem_map.mpr ⟨e0, this, rfl⟩)
      refine ⟨?_, ?_, ?_, ?_⟩
      · show (if (processImages resolve _ ([], [])).2 ≠ [] then 1 else 0) = 1
        rw [hfailed, if_pos hne]
      · exact hfailed
      · show (processImages resolve _ ([], [])).2 ≠ []
        rw [hfailed]; exact hne
      · intro hnd
        have hupd : (processImages resolve
            (X86Updater.extract_stagex_images (splitNl content)) ([], [])).1 =
            specUpdates resolve (X86Updater.extract_stagex_images (splitNl content)) := by
          rw [processImages_fst resolve _ [] [] hnd (by simp)]
          simp
        show (if (processImages resolve _ ([], [])).1 ≠ [] then
            (X86Updater.update_containerfile path content
              (processImages resolve _ ([], [])).1).2 else []) = _
        rw [hupd]

set_option maxRecDepth 100000 in
/-- Witness for C8: a file declaring `foo` (resolvable, digest differs)
and `bar` (unresolvable); the run exits 1 and reports `bar`. -/
theorem claim_C8_witness :
    (StagexUpdater.main "Containerfile".data none
        (fun n => if n = "foo".data then some hexB else none)).exitCode = 1 ∧
    (∃ e ∈ StagexUpdater.extract_stagex_images (splitNl
        ("FROM stagex/foo@sha256:".data ++ hexA ++
          (" AS x\nFROM stagex/bar@sha256:".data ++ (hexC ++ " AS y".data)))),
      (fun n => if n = "foo".data then some hexB else none) e.1 = none) ∧
    (StagexUpdater.main "Containerfile".data
        (some ("FROM stagex/foo@sha256:".data ++ hexA ++
          (" AS x\nFROM stagex/bar@sha256:".data ++ (hexC ++ " AS y".data))))
        (fun n => if n = "foo".data then some hexB else none)).exitCode = 1 ∧
    (StagexUpdater.main "Containerfile".data
        (some ("FROM stagex/foo@sha256:".data ++ hexA ++
          (" AS x\nFROM stagex/bar@sha256:".data ++ (hexC ++ " AS y".data))))
        (fun n => if n = "foo".data then some hexB else none)).failed ≠ [] := by
  refine ⟨(claim_C8 "Containerfile".data _).1.1, ?_, ?_, ?_⟩
  · decide
  · exact (((claim_C8 "Containerfile".data _).1.2.2 _ (by decide))).1
  · exact (((claim_C8 "Containerfile".data _).1.2.2 _ (by decide))).2.2.1

/-! ## Claim C2: the resolvers -/

theorem except_bind_ok {ε α β : Type} (a : α) (f : α → Except ε β) :
    (Except.ok a >>= f) = f a := rfl

theorem except_bind_err {ε α β : Type} (e : ε) (f : α → Except ε β) :
    ((Except.error e : Except ε α) >>= f) = Except.error e := rfl

theorem deriveUrl_ok {image_name : List Char}
    (h : image_name = "core-ca-certificates".data ∨
         image_name = "user-linux-nitro".data ∨
         (dropLit "core-".data image_name).isSome ∨
         (dropLit "user-".data image_name).isSome ∨
         (X86Updater.breakDash image_name).isSome) :
    ∃ u, X86Updater.deriveUrl image_name = .ok u := by
  unfold X86Updater.deriveUrl
  by_cases h1 : image_name = "core-ca-certificates".data
  · exact ⟨_, by rw [if_pos h1]⟩
  rw [if_neg h1]
  by_cases h2 : image_name = "user-linux-nitro".data
  · exact ⟨_, by rw [if_pos h2]⟩
  rw [if_neg h2]
  rcases h3 : dropLit "core-".data image_name with _ | rest
  · rcases h4 : dropLit "user-".data image_name with _ | rest
    · rcases h5 : X86Updater.breakDash image_name with _ | p
      · rcases h with h | h | h | h | h
        · exact absurd h h1
        · exact absurd h h2
        · rw [h3] at h; simp at h
        · rw [h4] at h; simp at h
        · rw [h5] at h; simp at h
      · simp only [h3, h4, h5, Except.map]
        exact ⟨_, rfl⟩
    · simp only [h3, h4, Except.map]
      exact ⟨_, rfl⟩
  · simp only [h3, Except.map]
    exact ⟨_, rfl⟩

theorem iterEntries_ok {es : List Json} (h : ∀ e ∈ es, entryOkB e = true) :
    ∃ r, StagexUpdater.iterEntries es = .ok r := by
  induction es with
  | nil => exact ⟨none, rfl⟩
  | cons e es ih =>
    have he := h e (by simp)
    have hrest := ih (fun x hx => h x (by simp [hx]))
    rcases e with _ | b | n | s | l | kvs <;> simp [entryOkB] at he
    have hdesc : ∃ dkvs, jGet (.jobj kvs) "Descriptor".data (.jobj []) =
        .ok (.jobj dkvs) ∧
        (∀ pv, ((dkvs.find? (fun p => p.1 == "platform".data)).map (fun p => p.2) :
          Option Json) = some pv → ∃ pkvs, pv = .jobj pkvs) := by
      rcases hf : ((kvs.find? (fun p => p.1 == "Descriptor".data)).map (fun p => p.2) :
          Option Json) with _ | dv
      · refine ⟨[], ?_, ?_⟩
        · simp [jGet, hf]
        · intro pv hpv
          simp at hpv
      · rw [hf] at he
        rcases dv with _ | b2 | n2 | s2 | l2 | dkvs <;> simp at he
        refine ⟨dkvs, ?_, ?_⟩
        · simp [jGet, hf]
        · intro pv hpv
          rw [hpv] at he
          rcases pv with _ | b3 | n3 | s3 | l3 | pkvs <;> simp at he
          exact ⟨pkvs, rfl⟩
    obtain ⟨dkvs, hdget, hplat⟩ := hdesc
    have hpget : ∃ pkvs, jGet (.jobj dkvs) "platform".data (.jobj []) =
        .ok (.jobj pkvs) := by
      rcases hf : ((dkvs.find? (fun p => p.1 == "platform".data)).map (fun p => p.2) :
          Option Json) with _ | pv
      · exact ⟨[], by simp [jGet, hf]⟩
      · obtain ⟨pkvs, rfl⟩ := hplat pv hf
        exact ⟨pkvs, by simp [jGet, hf]⟩
    obtain ⟨pkvs, hpget⟩ := hpget
    have href : ∃ s, jGet (.jobj kvs) "Ref".data (.jstr []) =
        .ok (.jstr s) := by
      rcases hf : ((kvs.find? (fun p => p.1 == "Ref".data)).map (fun p => p.2) :
          Option Json) with _ | rv
      · exact ⟨[], by simp [jGet, hf]⟩
      · rw [hf] at he
        rcases rv with _ | b4 | n4 | s4 | l4 | rkvs <;> simp at he
        exact ⟨s4, by simp [jGet, hf]⟩
    obtain ⟨s0, href⟩ := href
    rw [StagexUpdater.iterEntries]
    rw [hdget, except_bind_ok, hpget, except_bind_ok]
    have harch : ∃ av, jGet (.jobj pkvs) "architecture".data .null = .ok av :=
      ⟨_, rfl⟩
    obtain ⟨av, harch⟩ := harch
    rw [harch, except_bind_ok]
    have hos : ∃ ov, jGet (.jobj pkvs) "os".data .null = .ok ov := ⟨_, rfl⟩
    obtain ⟨ov, hos⟩ := hos
    rw [hos, except_bind_ok]
    by_cases hcond : (jEqStr av "arm64".data && jEqStr ov "linux".data) = true
    · rw [if_pos hcond, href, except_bind_ok]
      rcases hsd : searchLitSha "@sha256:".data s0 with _ | d
      · simpa [hsd] using hrest
      · exact ⟨some d, by simp [hsd]⟩
    · rw [if_neg hcond]
      exact hrest

/-- Claim C2 (corrected, amended form).  The Resolver returns the absence
signal without raising exactly for its handled failure classes: the
package-index variant never raises once the URL derivation succeeds
(special-cased name, `core-`/`user-` prefix, or any name containing a
dash) whatever the fetch does; the manifest variant returns `None` for a
failed subprocess or an unparsable JSON payload, and finishes without
raising on any well-shaped manifest list.  (Outside these classes the code
does raise — see the counterexample.) -/
theorem claim_C2 :
    (∀ (image_name : List Char) (w : X86Updater.IndexWorld),
      (image_name = "core-ca-certificates".data ∨
       image_name = "user-linux-nitro".data ∨
       (dropLit "core-".data image_name).isSome ∨
       (dropLit "user-".data image_name).isSome ∨
       (X86Updater.breakDash image_name).isSome) →
      ∃ r, X86Updater.get_arm64_hash image_name w = .ok r) ∧
    (∀ image_name : List Char,
      StagexUpdater.get_arm64_hash image_name .cpeFail = .ok none ∧
      StagexUpdater.get_arm64_hash image_name (.output none) = .ok none) ∧
    (∀ (image_name : List Char) (j : Json), wfManifest j = true →
      ∃ r, StagexUpdater.get_arm64_hash image_name (.output (some j)) = .ok r) := by
  refine ⟨?_, fun _ => ⟨rfl, rfl⟩, ?_⟩
  · intro image_name w h
    obtain ⟨u, hu⟩ := deriveUrl_ok h
    unfold X86Updater.get_arm64_hash
    rw [hu, except_bind_ok]
    rcases w with _ | nodes
    · exact ⟨none, rfl⟩
    · rcases hf : nodes.find? (fun nd => (searchLitSha "linux/arm64 sha256:".data nd).isSome)
        with _ | nd
      · refine ⟨none, ?_⟩
        simp [hf]
      · refine ⟨searchLitSha "sha256:".data nd, ?_⟩
        simp [hf]
  · intro image_name j hwf
    rcases j with _ | b | n | s | l | kvs <;> simp [wfManifest] at hwf
    exact iterEntries_ok hwf

/-- Counterexample to C2 as stated: the package-index variant raises
`ValueError` for the dash-free image name `foo` (URL derivation runs
outside its `try`), and the manifest variant propagates the
`FileNotFoundError` of a missing `docker` binary; neither returns the
absence signal. -/
theorem claim_C2_cex :
    X86Updater.get_arm64_hash "foo".data (X86Updater.IndexWorld.page []) =
      Except.error PyErr.valueErr ∧
    StagexUpdater.get_arm64_hash "core-busybox".data
        StagexUpdater.ManifestWorld.procMissing =
      Except.error PyErr.fileNotFound := ⟨rfl, rfl⟩

/-- Witness for C2: concrete runs in each handled class. -/
theorem claim_C2_witness :
    (∃ r, X86Updater.get_arm64_hash "core-busybox".data
      X86Updater.IndexWorld.fetchRaises = .ok r) ∧
    (StagexUpdater.get_arm64_hash "core-busybox".data .cpeFail = .ok none ∧
     StagexUpdater.get_arm64_hash "core-busybox".data (.output none) = .ok none) ∧
    (∃ r, StagexUpdater.get_arm64_hash "core-busybox".data
      (.output (some (Json.jarr []))) = .ok r) :=
  ⟨(claim_C2.1 "core-busybox".data X86Updater.IndexWorld.fetchRaises
      (Or.inr (Or.inr (Or.inl (by decide))))),
   claim_C2.2.1 "core-busybox".data,
   claim_C2.2.2 "core-busybox".data (Json.jarr []) (by decide)⟩

/-! ## Claims C3 and C4: the extractor -/

theorem coreFrom_sound {r nm ref al : List Char}
    (h : coreFrom r = some (nm, ref, al)) :
    ∃ sep w2 w3,
      r = nm ++ sep :: (ref ++ (w2 ++ (['A', 'S'] ++ (w3 ++ al)))) ∧
      (sep = '@' ∨ sep = ':') ∧
      nm ≠ [] ∧ (∀ c ∈ nm, ¬(c = '@' ∨ c = ':')) ∧
      ref ≠ [] ∧ (∀ c ∈ ref, isWs c = false ∧ c ≠ '@') ∧
      wsRunOk w2 ∧ wsRunOk w3 ∧
      al ≠ [] ∧ (∀ c ∈ al, c ≠ '\n') ∧ (∀ c ∈ al.take 1, isWs c = false) := by
  unfold coreFrom at h
  rcases h1 : pPlus (fun c => !(c == '@' || c == ':')) r with _ | ⟨nm0, r1⟩ <;>
    simp only [h1] at h
  · exact absurd h (by simp)
  rcases r1 with _ | ⟨sep, r2⟩
  · simp at h
  simp only at h
  by_cases hsep : (sep == '@' || sep == ':') = true
  swap
  · rw [if_neg hsep] at h; exact absurd h (by simp)
  rw [if_pos hsep] at h
  rcases h2 : pPlus (fun c => !(isWs c || c == '@')) r2 with _ | ⟨ref0, r3⟩ <;>
    simp only [h2] at h
  · exact absurd h (by simp)
  rcases h3 : pPlus isWs r3 with _ | ⟨w2, r4⟩ <;> simp only [h3] at h
  · exact absurd h (by simp)
  rcases h4 : dropLit ['A', 'S'] r4 with _ | r5 <;> simp only [h4] at h
  · exact absurd h (by simp)
  rcases h5 : pPlus isWs r5 with _ | ⟨w3, al0⟩ <;> simp only [h5] at h
  · exact absurd h (by simp)
  by_cases h6 : al0.isEmpty
  · rw [if_pos h6] at h; exact absurd h (by simp)
  rw [if_neg h6] at h
  by_cases h7 : al0.all (fun c => !(c == '\n')) = true
  swap
  · rw [if_neg h7] at h; exact absurd h (by simp)
  rw [if_pos h7] at h
  simp only [Option.some.injEq, Prod.mk.injEq] at h
  obtain ⟨hnm, href, hal⟩ := h
  subst hnm; subst href; subst hal
  have e1 := pPlus_sound h1
  have e2 := pPlus_sound h2
  have e3 := pPlus_sound h3
  have e4 := dropLit_eq_some.mp h4
  have e5 := pPlus_sound h5
  refine ⟨sep, w2, w3, ?_, ?_, e1.2.1, ?_, e2.2.1, ?_, ⟨e3.2.1, e3.2.2.1⟩,
    ⟨e5.2.1, e5.2.2.1⟩, by simpa using h6, ?_, ?_⟩
  · rw [e1.1, e2.1, e3.1, e4, e5.1]
  · simpa [beq_iff_eq] using hsep
  · intro c hc
    have := e1.2.2.1 c hc
    simp only [Bool.not_eq_true', Bool.or_eq_false_iff, beq_eq_false_iff_ne] at this
    tauto
  · intro c hc
    have := e2.2.2.1 c hc
    simp only [Bool.not_eq_true', Bool.or_eq_false_iff, beq_eq_false_iff_ne] at this
    exact ⟨this.1, this.2⟩
  · intro c hc
    have := List.all_eq_true.mp h7 c hc
    simpa using this
  · intro c hc
    have := e5.2.2.2 c hc
    simpa using this

theorem coreFrom_complete {nm ref al : List Char} {sep : Char} {w2 w3 : List Char}
    (hsep : sep = '@' ∨ sep = ':')
    (hnm : nm ≠ []) (hnmc : ∀ c ∈ nm, ¬(c = '@' ∨ c = ':'))
    (href : ref ≠ []) (hrefc : ∀ c ∈ ref, isWs c = false ∧ c ≠ '@')
    (hw2 : wsRunOk w2) (hw3 : wsRunOk w3)
    (hal : al ≠ []) (halnl : ∀ c ∈ al, c ≠ '\n')
    (halhd : ∀ c ∈ al.take 1, isWs c = false) :
    coreFrom (nm ++ sep :: (ref ++ (w2 ++ (['A', 'S'] ++ (w3 ++ al))))) =
      some (nm, ref, al) := by
  have e1 : pPlus (fun c => !(c == '@' || c == ':'))
      (nm ++ sep :: (ref ++ (w2 ++ (['A', 'S'] ++ (w3 ++ al))))) =
      some (nm, sep :: (ref ++ (w2 ++ (['A', 'S'] ++ (w3 ++ al))))) := by
    refine pPlus_app hnm ?_ ?_
    · intro c hc
      have := hnmc c hc
      simp only [Bool.not_eq_true', Bool.or_eq_false_iff, beq_eq_false_iff_ne]
      tauto
    · intro c hc
      simp only [List.take, List.mem_singleton] at hc
      subst hc
      rcases hsep with rfl | rfl <;> simp
  have e2 : pPlus (fun c => !(isWs c || c == '@'))
      (ref ++ (w2 ++ (['A', 'S'] ++ (w3 ++ al)))) =
      some (ref, w2 ++ (['A', 'S'] ++ (w3 ++ al))) := by
    rcases hw2 with ⟨hw2ne, hw2c⟩
    cases w2 with
    | nil => exact absurd rfl hw2ne
    | cons x xs =>
      refine pPlus_app href ?_ ?_
      · intro c hc
        have := hrefc c hc
        simp [this.1, this.2]
      · intro ch hch
        simp only [List.cons_append, List.take, List.mem_singleton] at hch
        rw [hch]
        simp [hw2c x (by simp)]
  have e3 : pPlus isWs (w2 ++ (['A', 'S'] ++ (w3 ++ al))) =
      some (w2, ['A', 'S'] ++ (w3 ++ al)) := by
    refine pPlus_app hw2.1 hw2.2 ?_
    intro c hc
    simp only [List.take, List.mem_singleton, List.cons_append] at hc
    subst hc; decide
  have e4 : pPlus isWs (w3 ++ al) = some (w3, al) := by
    refine pPlus_app hw3.1 hw3.2 ?_
    intro c hc
    exact fun hws => by
      rw [halhd c hc] at hws
      cases hws
  have hsepb : (sep == '@' || sep == ':') = true := by
    rcases hsep with rfl | rfl <;> simp
  have h6 : al.isEmpty = false := by simpa using hal
  have h7 : al.all (fun c => !(c == '\n')) = true :=
    List.all_eq_true.mpr (fun c hc => by simpa using halnl c hc)
  unfold coreFrom
  simp only [e1, hsepb, if_true, e2, e3, dropLit_self, e4, h6, h7,
    Bool.false_eq_true, if_false]

theorem matchFromSx_iff {s nm ref al : List Char} :
    StagexUpdater.matchFrom s = some (nm, ref, al) ↔ declGrammar s nm ref al := by
  constructor
  · intro h
    unfold StagexUpdater.matchFrom at h
    rcases h1 : dropLit "FROM".data s with _ | r0 <;> simp only [h1] at h
    · exact absurd h (by simp)
    rcases h2 : pPlus isWs r0 with _ | ⟨w1, r1⟩ <;> simp only [h2] at h
    · exact absurd h (by simp)
    rcases h3 : dropLit "stagex/".data r1 with _ | r2 <;> simp only [h3] at h
    · exact absurd h (by simp)
    obtain ⟨sep, w2, w3, hr2, hsep, hnm, hnmc, href, hrefc, hw2, hw3, hal, halnl, halhd⟩ :=
      coreFrom_sound h
    have e2 := pPlus_sound h2
    refine ⟨w1, sep, w2, w3, ?_, ⟨e2.2.1, e2.2.2.1⟩, hsep, hnm, ?_, href, ?_,
      hw2, hw3, hal, halnl, ?_⟩
    · rw [dropLit_eq_some.mp h1, e2.1, dropLit_eq_some.mp h3, hr2]
      simp [List.append_assoc]
    · exact hnmc
    · intro c hc
      have := hrefc c hc
      exact fun hor => by
        rcases hor with h | h
        · rw [this.1] at h; cases h
        · exact this.2 h
    · intro c hc
      exact fun hws => by
        rw [halhd c hc] at hws
        cases hws
  · rintro ⟨w1, sep, w2, w3, hs, hw1, hsep, hnm, hnmc, href, hrefc, hw2, hw3,
      hal, halnl, halhd⟩
    have hrefc2 : ∀ c ∈ ref, isWs c = false ∧ c ≠ '@' := by
      intro c hc
      constructor
      · by_contra hws
        exact hrefc c hc (Or.inl (Bool.of_not_eq_false hws))
      · exact fun he => hrefc c hc (Or.inr he)
    have halhd2 : ∀ c ∈ al.take 1, isWs c = false := by
      intro c hc
      by_contra hws
      exact halhd c hc (Bool.of_not_eq_false hws)
    have hstep : "FROM".data ++ w1 ++ "stagex/".data ++ nm ++ sep ::
        (ref ++ w2 ++ ['A', 'S'] ++ w3 ++ al) =
        "FROM".data ++ (w1 ++ ("stagex/".data ++
          (nm ++ sep :: (ref ++ (w2 ++ (['A', 'S'] ++ (w3 ++ al))))))) := by
      simp [List.append_assoc]
    unfold StagexUpdater.matchFrom
    rw [hs, hstep]
    have e2 : pPlus isWs (w1 ++ ("stagex/".data ++
        (nm ++ sep :: (ref ++ (w2 ++ (['A', 'S'] ++ (w3 ++ al))))))) =
        some (w1, "stagex/".data ++
          (nm ++ sep :: (ref ++ (w2 ++ (['A', 'S'] ++ (w3 ++ al)))))) := by
      refine pPlus_app hw1.1 hw1.2 ?_
      intro c hc
      simp only [List.take, List.mem_singleton] at hc
      subst hc; decide
    simp only [dropLit_self, e2]
    exact coreFrom_complete hsep hnm hnmc href hrefc2 hw2 hw3 hal halnl halhd2

theorem matchFromSx_core {s nm ref al : List Char}
    (h : StagexUpdater.matchFrom s = some (nm, ref, al)) :
    ∃ r2, coreFrom r2 = some (nm, ref, al) := by
  unfold StagexUpdater.matchFrom at h
  rcases h1 : dropLit "FROM".data s with _ | r0 <;> simp only [h1] at h
  · exact absurd h (by simp)
  rcases h2 : pPlus isWs r0 with _ | ⟨w1, r1⟩ <;> simp only [h2] at h
  · exact absurd h (by simp)
  rcases h3 : dropLit "stagex/".data r1 with _ | r2 <;> simp only [h3] at h
  · exact absurd h (by simp)
  exact ⟨r2, h⟩

theorem matchFromX86_core {s nm ref al : List Char}
    (h : X86Updater.matchFrom s = some (nm, ref, al)) :
    ∃ r2, coreFrom r2 = some (nm, ref, al) := by
  unfold X86Updater.matchFrom at h
  rcases h1 : dropLit "FROM".data s with _ | r0 <;> simp only [h1] at h
  · exact absurd h (by simp)
  rcases h2 : pPlus isWs r0 with _ | ⟨w1, r1⟩ <;> simp only [h2] at h
  · exact absurd h (by simp)
  rcases (orElse_eq_some_iff _ _ _).mp h with halt | ⟨_, h⟩
  · rcases h3 : dropLit "${STAGEX_REG}/".data r1 with _ | r2 <;> simp only [h3] at halt
    · exact absurd halt (by simp)
    · exact ⟨r2, halt⟩
  rcases (orElse_eq_some_iff _ _ _).mp h with halt | ⟨_, h⟩
  · rcases h4 : pPlus (fun c => !(c == '/')) r1 with _ | ⟨p, r2⟩ <;> simp only [h4] at halt
    · exact absurd halt (by simp)
    rcases r2 with _ | ⟨c2, r3⟩
    · exact absurd halt (by simp)
    by_cases hc2 : c2 = '/'
    · subst hc2
      exact ⟨r3, halt⟩
    · rcases c2
      simp_all
  · exact ⟨r1, h⟩

theorem coreFrom_ref_chars {r nm ref al : List Char}
    (h : coreFrom r = some (nm, ref, al)) :
    ∀ c ∈ ref, isWs c = false ∧ c ≠ '@' := by
  obtain ⟨sep, w2, w3, _, _, _, _, _, hrefc, _⟩ := coreFrom_sound h
  exact hrefc

theorem extractLoop_eq
    (matcher : List Char → Option (List Char × List Char × List Char)) :
    ∀ lines : List (List Char),
      extractLoop matcher lines = lines.filterMap (lineEntry matcher) := by
  intro lines
  induction lines with
  | nil => rfl
  | cons l ls ih =>
    simp only [extractLoop, lineEntry, List.filterMap_cons]
    split
    · simpa using ih
    · rcases hm : matcher (pyStrip l) with _ | ⟨n2, rest2⟩
      · simpa using ih
      · rcases rest2 with ⟨ref2, al2⟩
        simp only
        split
        · simpa using ih
        · rcases hd : dropLit "sha256:".data ref2 with _ | hsh
          · simpa using ih
          · simp [ih]
      
theorem lineEntry_inv {matcher : List Char → Option (List Char × List Char × List Char)}
    {l nm hsh line : List Char}
    (h : lineEntry matcher l = some (nm, hsh, line)) :
    ∃ ref al, matcher (pyStrip l) = some (nm, ref, al) ∧
      ref = "sha256:".data ++ hsh := by
  unfold lineEntry at h
  dsimp only at h
  split at h
  · exact absurd h (by simp)
  · rcases hm : matcher (pyStrip l) with _ | ⟨n2, ref2, al2⟩ <;> simp only [hm] at h
    · exact absurd h (by simp)
    split at h
    · exact absurd h (by simp)
    rcases hd : dropLit "sha256:".data ref2 with _ | hsh2 <;> simp only [hd] at h
    · exact absurd h (by simp)
    simp only [Option.some.injEq, Prod.mk.injEq] at h
    obtain ⟨h1, h2, h3⟩ := h
    subst h1; subst h2
    exact ⟨ref2, al2, by simp [hm], dropLit_eq_some.mp hd⟩

theorem extractLoop_hash_chars
    (matcher : List Char → Option (List Char × List Char × List Char))
    (hmatch : ∀ s nm ref al, matcher s = some (nm, ref, al) →
      ∀ c ∈ ref, isWs c = false ∧ c ≠ '@') :
    ∀ (lines : List (List Char)) (e : List Char × List Char × List Char),
      e ∈ extractLoop matcher lines → ∀ c ∈ e.2.1, isWs c = false ∧ c ≠ '@' := by
  intro lines e he
  rw [extractLoop_eq] at he
  obtain ⟨l, _, hl⟩ := List.mem_filterMap.mp he
  rcases e with ⟨nm, hsh, line⟩
  obtain ⟨ref, al, hm, href⟩ := lineEntry_inv hl
  intro c hc
  exact hmatch _ _ _ _ hm c (by rw [href]; simp [hc])

/-- Claim C3 (corrected, amended form).  Every `currentDigest` produced by
either Extractor is the reference token with its `sha256:` prefix removed;
its characters are never whitespace nor `@` (they come from the
`[^@\s]+` group), but no 64-hex length check is performed. -/
theorem claim_C3 :
    (∀ (lines : List (List Char)) (e : List Char × List Char × List Char),
      e ∈ StagexUpdater.extract_stagex_images lines →
      ∀ c ∈ e.2.1, isWs c = false ∧ c ≠ '@') ∧
    (∀ (lines : List (List Char)) (e : List Char × List Char × List Char),
      e ∈ X86Updater.extract_stagex_images lines →
      ∀ c ∈ e.2.1, isWs c = false ∧ c ≠ '@') := by
  constructor
  · exact extractLoop_hash_chars _ (fun s nm ref al h => by
      obtain ⟨r2, hc⟩ := matchFromSx_core h
      exact coreFrom_ref_chars hc)
  · exact extractLoop_hash_chars _ (fun s nm ref al h => by
      obtain ⟨r2, hc⟩ := matchFromX86_core h
      exact coreFrom_ref_chars hc)

set_option maxRecDepth 100000 in
/-- Witness for C3 at a concrete file. -/
theorem claim_C3_witness :
    ("foo".data, hexA, "FROM stagex/foo@sha256:".data ++ hexA ++ " AS x".data) ∈
      StagexUpdater.extract_stagex_images
        [("FROM stagex/foo@sha256:".data ++ hexA ++ " AS x".data)] ∧
    (∀ c ∈ hexA, isWs c = false ∧ c ≠ '@') :=
  ⟨by decide,
   claim_C3.1 [("FROM stagex/foo@sha256:".data ++ hexA ++ " AS x".data)]
     ("foo".data, hexA, "FROM stagex/foo@sha256:".data ++ hexA ++ " AS x".data)
     (by decide)⟩

/-- Counterexample to C3 as stated: the Extractors keep `sha256:xyz` as a
reference and record `currentDigest = "xyz"`, which has 3 characters, not
64. -/
theorem claim_C3_cex :
    StagexUpdater.extract_stagex_images ["FROM stagex/foo@sha256:xyz AS a".data] =
      [("foo".data, "xyz".data, "FROM stagex/foo@sha256:xyz AS a".data)] ∧
    X86Updater.extract_stagex_images ["FROM stagex/foo@sha256:xyz AS a".data] =
      [("foo".data, "xyz".data, "FROM stagex/foo@sha256:xyz AS a".data)] ∧
    ("xyz".data).length ≠ 64 := ⟨by decide, by decide, by decide⟩

/-- Claim C4 (corrected, amended form).  The stagex-variant Extractor
keeps exactly the lines whose stripped text matches the declarative
grammar `FROM <ws> stagex/ <name> (@|:) <ref> <ws> AS <ws> <alias>` with a
reference token that begins with `sha256:` and is not `local` — under
either separator, so digest-form tags are also kept — skipping comment and
blank lines, in input order (the extractor is the `filterMap` of the
per-line rule). -/
theorem claim_C4 :
    (∀ s nm ref al : List Char,
      StagexUpdater.matchFrom s = some (nm, ref, al) ↔ declGrammar s nm ref al) ∧
    (∀ lines : List (List Char),
      StagexUpdater.extract_stagex_images lines =
        lines.filterMap (lineEntry StagexUpdater.matchFrom)) :=
  ⟨fun _ _ _ _ => matchFromSx_iff, fun lines => extractLoop_eq _ lines⟩

/-- Counterexample to C4 as stated: a tag-pinned line (separator `:`)
whose tag happens to start with `sha256:` IS extracted, and a
digest-pinned line without any registry prefix is NOT extracted by the
stagex variant although the claim calls the prefix optional (the x86
variant does accept it, for contrast). -/
theorem claim_C4_cex :
    StagexUpdater.extract_stagex_images
        [("FROM stagex/foo:sha256:".data ++ hexA ++ " AS x".data)] =
      [("foo".data, hexA, "FROM stagex/foo:sha256:".data ++ hexA ++ " AS x".data)] ∧
    StagexUpdater.extract_stagex_images
        [("FROM foo@sha256:".data ++ hexA ++ " AS x".data)] = [] ∧
    X86Updater.extract_stagex_images
        [("FROM foo@sha256:".data ++ hexA ++ " AS x".data)] =
      [("foo".data, hexA, "FROM foo@sha256:".data ++ hexA ++ " AS x".data)] := by
  refine ⟨by decide, by decide, by decide⟩

/-! ## Claims C9 and C10: the instance finder -/

/-- Claim C10 (confirmed).  The price used by the finder is the parsed
value of `prices.Linux.us-east-1.Shared` when the `Shared` key is present,
else of `Dedicated` when present, else none — exactly the spec-worded
`specPrice` — and every entry `filter_instances` returns carries the price
of its own instance record (absent price ⇒ the instance is excluded). -/
theorem claim_C10 :
    (∀ inst : AwsFinder.InstanceData,
      AwsFinder.get_linux_price_us_east_1 inst = AwsFinder.specPrice inst) ∧
    (∀ (instances : List (List Char × AwsFinder.InstanceData)) (cpu : Int)
      (allowed : Option (List (List Char)))
      (e : List Char × AwsFinder.InstanceData × Rat),
      e ∈ AwsFinder.filter_instances instances cpu allowed →
      AwsFinder.get_linux_price_us_east_1 e.2.1 = some e.2.2) := by
  constructor
  · intro inst
    rcases inst with ⟨v, regs, _ | ⟨s, d⟩⟩
    · rfl
    · rcases s with _ | sv
      · rcases d with _ | dv <;> rfl
      · rfl
  · intro instances cpu allowed
    induction instances with
    | nil => intro e he; simp [AwsFinder.filter_instances] at he
    | cons p rest ih =>
      intro e he
      rcases p with ⟨nm, d⟩
      unfold AwsFinder.filter_instances at he
      split at he
      · exact ih e he
      · split at he
        · exact ih e he
        · rcases hp : AwsFinder.get_linux_price_us_east_1 d with _ | q <;>
            simp only [hp] at he
          · exact ih e he
          · split at he
            · rcases List.mem_cons.mp he with rfl | hmem
              · exact hp
              · exact ih e hmem
            · exact ih e he

/-- Witness for C10's membership conjunct at a concrete list. -/
theorem claim_C10_witness :
    (("m5.large".data, (⟨some 2, ["us-east-1".data],
        some ⟨some "0.096".data, none⟩⟩ : AwsFinder.InstanceData),
      AwsFinder.pyFloat "0.096".data |>.getD 0) ∈
      AwsFinder.filter_instances
        [("m5.large".data, ⟨some 2, ["us-east-1".data],
          some ⟨some "0.096".data, none⟩⟩)] 2 none) ∧
    AwsFinder.get_linux_price_us_east_1
        ⟨some 2, ["us-east-1".data], some ⟨some "0.096".data, none⟩⟩ =
      some (AwsFinder.pyFloat "0.096".data |>.getD 0) :=
  ⟨List.mem_singleton.mpr rfl,
   claim_C10.2 [("m5.large".data, ⟨some 2, ["us-east-1".data],
       some ⟨some "0.096".data, none⟩⟩)] 2 none
     ("m5.large".data, ⟨some 2, ["us-east-1".data],
       some ⟨some "0.096".data, none⟩⟩,
      AwsFinder.pyFloat "0.096".data |>.getD 0) (List.mem_singleton.mpr rfl)⟩

/-- Claim C9 (confirmed).  For the spec's example map — `m5.large` with
vcpu 2, region `us-east-1` and Shared Linux price `"0.096"`, plus
`m5.xlarge` with vcpu 4 and arbitrary other fields — filtering at
cpu_count 2 with no allowed-set returns exactly one entry, for
`m5.large`. -/
theorem claim_C9 :
    ∀ x : AwsFinder.InstanceData, x.vcpu = some 4 →
      (AwsFinder.filter_instances
        [("m5.large".data, ⟨some 2, ["us-east-1".data],
            some ⟨some "0.096".data, none⟩⟩),
         ("m5.xlarge".data, x)] 2 none).map (fun e => e.1) =
        ["m5.large".data] := by
  intro x hx
  obtain ⟨q, hq⟩ : ∃ q, AwsFinder.get_linux_price_us_east_1
      (⟨some 2, ["us-east-1".data], some ⟨some "0.096".data, none⟩⟩ :
        AwsFinder.InstanceData) = some q := ⟨_, rfl⟩
  unfold AwsFinder.filter_instances
  simp only [hq]
  unfold AwsFinder.filter_instances
  simp [hx]
  rfl

/-- Witness for C9 with a concrete `m5.xlarge` record. -/
theorem claim_C9_witness :
    ((⟨some 4, [], none⟩ : AwsFinder.InstanceData).vcpu = some 4) ∧
    (AwsFinder.filter_instances
        [("m5.large".data, ⟨some 2, ["us-east-1".data],
            some ⟨some "0.096".data, none⟩⟩),
         ("m5.xlarge".data, ⟨some 4, [], none⟩)] 2 none).map (fun e => e.1) =
      ["m5.large".data] :=
  ⟨rfl, claim_C9 ⟨some 4, [], none⟩ rfl⟩

set_option maxRecDepth 100000 in
/-- Witness for C4: a concrete line satisfying the declarative grammar is
matched, with the expected groups. -/
theorem claim_C4_witness :
    declGrammar ("FROM stagex/foo@sha256:".data ++ hexA ++ " AS x".data)
      "foo".data ("sha256:".data ++ hexA) "x".data ∧
    StagexUpdater.matchFrom
        ("FROM stagex/foo@sha256:".data ++ hexA ++ " AS x".data) =
      some ("foo".data, "sha256:".data ++ hexA, "x".data) := by
  have hg : declGrammar ("FROM stagex/foo@sha256:".data ++ hexA ++ " AS x".data)
      "foo".data ("sha256:".data ++ hexA) "x".data :=
    ⟨[' '], '@', [' '], [' '], by decide⟩
  exact ⟨hg, (claim_C4.1 _ _ _ _).mpr hg⟩
